import Mathlib

/-!
# toxirc: the IRC session core (`src/irc.c`)

A shallow embedding of the IRC client connection manager of toxirc:
the framed sender (`irc_send`, `irc_send_fmt`, `irc_message`), the channel
registry (`irc_join_channel`, `irc_rejoin_channel`, `irc_leave_channel`,
`irc_leave_all_channels`, the lookups) and the connection manager
(`irc_connect`, `irc_disconnect`, `irc_reconnect`).

Conventions.
* A byte is a `Nat`; a C string argument is the list of bytes found at the
  pointer, read up to (not including) its first NUL (`cstr`).
* The `Channel` type is declared outside `irc.c`. Its `name` member is a
  character array (it is the target of `memcpy` right after the entry is
  zeroed); the size of that array is the parameter `Env.cap`. A name field
  that holds no NUL is read up to its end: reading further is outside
  defined behaviour, and the statements about names assume names that fit
  the field with their terminator.
* `num_channels` and `size_channels` are 32-bit counters; loop indices are
  below `2^31`, so that their conversion to `int` is the identity.
* The operating system is an oracle: `Env.send` gives the value returned by
  each `send(2)` call, `Conn` the outcome of `getaddrinfo`, `socket` and
  `connect`, and each `realloc` takes its outcome as an argument.
* `World` is the observable history: every buffer handed to `irc_send`
  (`reqs`) and every `send(2)` call with its result (`calls`).
* An operation returns `none` when the C program leaves defined behaviour
  (a store outside the allocated block or outside the name field) or when
  a loop runs out of its iteration budget; every statement below that says
  an operation returns, proves the result is `some`.
-/

namespace Toxirc

set_option maxRecDepth 100000

/-! ## Bytes and C strings -/

/-- Bytes of a string literal (without terminator). -/
def bytes (s : String) : List Nat := s.toList.map Char.toNat

/-- The C string stored at the start of a buffer: the bytes before the first NUL. -/
def cstr (buf : List Nat) : List Nat := buf.takeWhile (fun b => b != 0)

/-- Length of the C string: `strlen`. -/
def strlen (buf : List Nat) : Nat := (cstr buf).length

/-- Comparison `strcmp(a, b) == 0`. -/
def streq (a b : List Nat) : Bool := cstr a == cstr b

/-- Value of a 32-bit unsigned quantity converted to `int`. -/
def to_int (n : Nat) : Int :=
  if n % 4294967296 < 2147483648 then ((n % 4294967296 : Nat) : Int)
  else ((n % 4294967296 : Nat) : Int) - 4294967296

/-- The value `n - 1` in 32-bit unsigned arithmetic. -/
def u32_pred (n : Nat) : Nat :=
  if n % 4294967296 = 0 then 4294967295 else n % 4294967296 - 1

/-- Expansion of a format string in which the only conversion is `%s`
(37 = `%`, 115 = `s`), as done by `vsnprintf` before truncation. -/
def render : List Nat → List (List Nat) → List Nat
  | [], _ => []
  | 37 :: 115 :: rest, a :: as => cstr a ++ render rest as
  | c :: rest, as => c :: render rest as

/-! ## The observable world -/

/-- One call of `send(2)`: the socket, the bytes offered and the value returned. -/
structure SendCall where
  sock : Int
  data : List Nat
  ret : Int
deriving DecidableEq, Repr

/-- History of the session's output. -/
structure World where
  /-- number of `send(2)` calls made so far (index into the oracle) -/
  tick : Nat
  /-- every `send(2)` call, oldest first -/
  calls : List SendCall
  /-- every buffer handed to `irc_send` (`msg[0..len)` with its socket), oldest first -/
  reqs : List (Int × List Nat)
deriving DecidableEq, Repr

/-- Bytes accepted by one `send(2)` call. -/
def SendCall.accepted (c : SendCall) : List Nat := c.data.take c.ret.toNat

/-- Bytes put on the wire by a list of `send(2)` calls. -/
def wire (cs : List SendCall) : List Nat := (cs.map SendCall.accepted).flatten

/-- Bytes that reach the wire when a buffer is handed to `irc_send` and every
write succeeds: none on a negative socket, the buffer otherwise. -/
def on_wire (sock : Int) (bs : List Nat) : List Nat := if sock < 0 then [] else bs

/-- Parameters of the embedding that come from outside `irc.c`. -/
structure Env where
  /-- oracle for `send(2)`: call number and byte count requested to value returned -/
  send : Nat → Nat → Int
  /-- capacity in bytes of the `name` field of a channel entry -/
  cap : Nat
  /-- the global `settings.name` -/
  nick : List Nat

/-- A cooperative network: every `send(2)` call that is offered at least one
byte accepts at least one, and none accepts more than it is offered. -/
def Cooperative (E : Env) : Prop := ∀ t c, E.send t c ≤ c ∧ (0 < c → 0 < E.send t c)

/-- The network is cooperative from the `send(2)` call number `t0` on; nothing
is assumed about earlier calls. -/
def CooperativeFrom (E : Env) (t0 : Nat) : Prop :=
  ∀ t c, t0 ≤ t → E.send t c ≤ c ∧ (0 < c → 0 < E.send t c)

/-! ## Framed sender -/

/-- The loop `while (sent < len)` of `irc_send`; the first argument bounds the
number of iterations. -/
def send_loop (E : Env) (sock : Int) (msg : List Nat) (len : Int) :
    Nat → Int → World → Option (Int × World)
  | 0, sent, w => if sent < len then none else some (sent, w)
  | fuel + 1, sent, w =>
    if sent < len then
      let count := (len - sent).toNat
      let got := E.send w.tick count
      let w1 : World :=
        { w with tick := w.tick + 1
                 calls := w.calls ++ [⟨sock, (msg.drop sent.toNat).take count, got⟩] }
      if got ≤ 0 then some (-1, w1)
      else send_loop E sock msg len fuel (sent + got) w1
    else some (sent, w)

/-- Embedding of `irc_send(sock, msg, len)`. -/
def irc_send (E : Env) (sock : Int) (msg : List Nat) (len : Int) (w : World) :
    Option (Int × World) :=
  let w0 : World := { w with reqs := w.reqs ++ [(sock, msg.take len.toNat)] }
  if sock < 0 then some (-1, w0)
  else send_loop E sock msg len len.toNat 0 w0

/-- Embedding of `irc_send_fmt(sock, fmt, ...)`: `buf` is the 512-byte buffer
after `vsnprintf` (at most 511 bytes of the line, then a NUL). -/
def irc_send_fmt (E : Env) (sock : Int) (fmt : List Nat) (args : List (List Nat))
    (w : World) : Option (Int × World) :=
  let line := render fmt args
  let buf := line.take 511 ++ [0]
  let len : Int := line.length
  let len : Int := if len > 512 then 512 else len
  match irc_send E sock buf len w with
  | none => none
  | some (sent, w1) => if sent ≤ 0 then some (-1, w1) else some (sent, w1)

/-- Embedding of `irc_message(sock, channel, name, msg)`. -/
def irc_message (E : Env) (sock : Int) (channel name msg : List Nat) (w : World) :
    Option (Int × World) :=
  irc_send_fmt E sock (bytes "PRIVMSG %s :<%s> %s\n") [channel, name, msg] w

/-! ## Session state -/

/-- One registry entry (`Channel`): `name` is the content of the fixed-size
`name` field, byte by byte. -/
structure Channel where
  name : List Nat
  group_num : Nat
  in_channel : Bool
deriving DecidableEq, Repr

/-- The session (`IRC`): `channels` is the block that `irc->channels` points
to (empty for the NULL pointer), one element per allocated entry. The
`server` and `port` strings are only passed to the resolver and are left out. -/
structure IRC where
  channels : List Channel
  num_channels : Nat
  size_channels : Nat
  sock : Int
  connected : Bool
deriving DecidableEq, Repr

/-- Embedding of `irc_init`: the structure after `memset(irc, 0, sizeof(IRC))`. -/
def irc_init : IRC := ⟨[], 0, 0, 0, false⟩

/-- An entry after `memset(&entry, 0, sizeof(Channel))`. -/
def zero_channel (cap : Nat) : Channel := ⟨List.replicate cap 0, 0, false⟩

/-- Read of `channels[index]`; `none` outside the block. -/
def load (chans : List Channel) (index : Int) : Option Channel :=
  if index < 0 then none else chans[index.toNat]?

/-- Store into `channels[index]` of a value computed from the old one;
`none` outside the block or when the computation itself is undefined. -/
def update (chans : List Channel) (index : Int) (f : Channel → Option Channel) :
    Option (List Channel) :=
  if index < 0 then none
  else
    match chans[index.toNat]? with
    | none => none
    | some c =>
      match f c with
      | none => none
      | some c1 => some (chans.set index.toNat c1)

/-- Block returned by a successful `realloc(channels, sizeof(Channel) * count)`:
the old elements that still fit, then fresh elements of indeterminate content
(`junk i` for element `i`). -/
def realloc (chans : List Channel) (count : Nat) (junk : Nat → Channel) : List Channel :=
  chans.take count ++ (List.range' chans.length (count - chans.length)).map junk

/-- Effect of `memcpy(field, src, strlen(src))` on a name field: the first
`strlen(src)` bytes are replaced, the rest of the field is kept; `none` when
the copy does not fit in the field. -/
def memcpy_name (field src : List Nat) : Option (List Nat) :=
  if strlen src ≤ field.length then some (cstr src ++ field.drop (strlen src)) else none

/-- The live entries: those at indices below `num_channels`. -/
def live (s : IRC) : List Channel := s.channels.take s.num_channels

/-- The loop `for (i = start; ...; i++) if (p(channels[i])) return i;` over a
list of entries. -/
def scan (p : Channel → Bool) : List Channel → Nat → Option Nat
  | [], _ => none
  | c :: cs, i => if p c then some i else scan p cs (i + 1)

/-! ## Channel registry -/

/-- Embedding of `irc_get_channel_index`. -/
def irc_get_channel_index (s : IRC) (channel : List Nat) : Int :=
  match scan (fun c => streq channel c.name) (live s) 0 with
  | some i => to_int i
  | none => -1

/-- Embedding of `irc_get_channel_group` (the loop body is `return i;`). -/
def irc_get_channel_group (s : IRC) (channel : List Nat) : Nat :=
  match scan (fun c => streq channel c.name) (live s) 0 with
  | some i => i
  | none => 4294967295

/-- Embedding of `irc_get_channel_by_group`: the name found, `none` for NULL. -/
def irc_get_channel_by_group (s : IRC) (group_num : Nat) : Option (List Nat) :=
  match (live s).find? (fun c => c.group_num == group_num) with
  | some c => some (cstr c.name)
  | none => none

/-- Embedding of `irc_in_channel`. -/
def irc_in_channel (s : IRC) (channel : List Nat) : Bool :=
  (scan (fun c => streq c.name channel && c.in_channel) (live s) 0).isSome

/-- The block `if (group_num >= irc->size_channels) { ... }` of
`irc_join_channel`. `alloc` tells whether `realloc` succeeds and `junk` what
the fresh memory holds. The result is `some none` for the early
`return false`, `some (some s1)` when execution goes on in state `s1`. -/
def join_grow (E : Env) (s : IRC) (group_num : Nat) (alloc : Bool) (junk : Nat → Channel) :
    Option (Option IRC) :=
  if group_num ≥ s.size_channels then
    if alloc then
      let chans := realloc s.channels ((group_num + 1) % 4294967296) junk
      let size := (s.size_channels + 1) % 4294967296
      let num := (s.num_channels + 1) % 4294967296
      match update chans ((u32_pred num : Nat) : Int)
          (fun _ => some (zero_channel E.cap)) with
      | none => none
      | some chans1 =>
        some (some { s with channels := chans1, size_channels := size, num_channels := num })
    else some none
  else some (some s)

/-- The rest of `irc_join_channel`, from the `JOIN` line on: the entry at
`num_channels - 1` receives the name, the flag and the group number. -/
def join_store (E : Env) (s1 : IRC) (channel : List Nat) (group_num : Nat) (w : World) :
    Option (Bool × IRC × World) :=
  match irc_send_fmt E s1.sock (bytes "JOIN %s\n") [channel] w with
  | none => none
  | some (_, w1) =>
    let index : Int := to_int (u32_pred s1.num_channels)
    match update s1.channels index (fun c =>
        match memcpy_name c.name channel with
        | none => none
        | some nm => some { name := nm, in_channel := true, group_num := group_num }) with
    | none => none
    | some chans2 => some (true, { s1 with channels := chans2 }, w1)

/-- Embedding of `irc_join_channel(irc, channel, group_num)`: the growth
block, then the store. -/
def irc_join_channel (E : Env) (s : IRC) (channel : List Nat) (group_num : Nat)
    (alloc : Bool) (junk : Nat → Channel) (w : World) : Option (Bool × IRC × World) :=
  match join_grow E s group_num alloc junk with
  | none => none
  | some none => some (false, s, w)
  | some (some s1) => join_store E s1 channel group_num w

/-- Embedding of `irc_rejoin_channel(irc, index)`. -/
def irc_rejoin_channel (E : Env) (s : IRC) (index : Int) (w : World) :
    Option (IRC × World) :=
  match update s.channels index (fun c => some { c with in_channel := true }) with
  | none => none
  | some chans =>
    match load chans index with
    | none => none
    | some c =>
      match irc_send_fmt E s.sock (bytes "JOIN %s\n") [c.name] w with
      | none => none
      | some (_, w1) => some ({ s with channels := chans }, w1)

/-- Embedding of `irc_leave_channel(irc, index)`. -/
def irc_leave_channel (E : Env) (s : IRC) (index : Int) (w : World) :
    Option (Bool × IRC × World) :=
  match load s.channels index with
  | none => none
  | some c =>
    match irc_send_fmt E s.sock (bytes "PART %s\n") [c.name] w with
    | none => none
    | some (_, w1) =>
      match update s.channels index (fun _ => some (zero_channel E.cap)) with
      | none => none
      | some chans =>
        some (true, { s with channels := chans
                             num_channels := u32_pred s.num_channels }, w1)

/-- The loop of `irc_leave_all_channels`, from index `i`; the bound
`irc->num_channels` is read again at every iteration. -/
def leave_all_loop (E : Env) : Nat → Nat → IRC → World → Option (IRC × World)
  | 0, i, s, w => if i < s.num_channels then none else some (s, w)
  | fuel + 1, i, s, w =>
    if i < s.num_channels then
      match load s.channels i with
      | none => none
      | some c =>
        if c.in_channel then
          match irc_leave_channel E s i w with
          | none => none
          | some (_, s1, w1) => leave_all_loop E fuel (i + 1) s1 w1
        else leave_all_loop E fuel (i + 1) s w
    else some (s, w)

/-- Embedding of `irc_leave_all_channels`. -/
def irc_leave_all_channels (E : Env) (s : IRC) (w : World) : Option (IRC × World) :=
  leave_all_loop E s.num_channels 0 s w

/-! ## Connection manager -/

/-- Outcome of the system calls for one address candidate. -/
structure Cand where
  /-- value returned by `socket()` -/
  sock : Int
  /-- value returned by `connect()`, consulted only when the socket was created -/
  conn : Int
deriving DecidableEq, Repr

/-- Outcome of address resolution: the value `getaddrinfo` returns and the
candidate list it produces. -/
structure Conn where
  gai : Int
  cands : List Cand
deriving DecidableEq, Repr

/-- The candidate loop of `irc_connect`: the value of `irc->sock` when the
loop ends (the second argument is its value before the loop). -/
def connect_loop : List Cand → Int → Int
  | [], sock => sock
  | rp :: rest, _ =>
    if rp.sock = -1 then connect_loop rest rp.sock
    else if rp.conn ≠ -1 then rp.sock
    else connect_loop rest rp.sock

/-- Embedding of `irc_connect`. -/
def irc_connect (E : Env) (net : Conn) (s : IRC) (w : World) :
    Option (Bool × IRC × World) :=
  if net.gai ≠ 0 then some (false, s, w)
  else
    let sock := connect_loop net.cands s.sock
    match irc_send E sock (bytes "PASS none\n") 10 w with
    | none => none
    | some (_, w1) =>
      match irc_send_fmt E sock (bytes "NICK %s\n") [E.nick] w1 with
      | none => none
      | some (_, w2) =>
        match irc_send_fmt E sock (bytes "USER %s %s %s :%s\n")
            [E.nick, E.nick, E.nick, E.nick] w2 with
        | none => none
        | some (_, w3) => some (true, { s with sock := sock, connected := true }, w3)

/-- The loop of `irc_disconnect` that clears `in_channel`, from index `i`. -/
def disconnect_loop : Nat → Nat → IRC → Option IRC
  | 0, i, s => if i < s.num_channels then none else some s
  | fuel + 1, i, s =>
    if i < s.num_channels then
      match update s.channels i (fun c => some { c with in_channel := false }) with
      | none => none
      | some chans => disconnect_loop fuel (i + 1) { s with channels := chans }
    else some s

/-- Embedding of `irc_disconnect`. -/
def irc_disconnect (E : Env) (s : IRC) (w : World) : Option (IRC × World) :=
  match irc_send E s.sock (bytes "QUIT\n") 5 w with
  | none => none
  | some (_, w1) =>
    match disconnect_loop s.num_channels 0 { s with connected := false } with
    | none => none
    | some s1 => some (s1, w1)

/-- The replay loop of `irc_reconnect`, from index `i`. -/
def reconnect_loop (E : Env) : Nat → Nat → IRC → World → Option (IRC × World)
  | 0, i, s, w => if i < s.num_channels then none else some (s, w)
  | fuel + 1, i, s, w =>
    if i < s.num_channels then
      match irc_rejoin_channel E s i w with
      | none => none
      | some (s1, w1) => reconnect_loop E fuel (i + 1) s1 w1
    else some (s, w)

/-- Embedding of `irc_reconnect`. -/
def irc_reconnect (E : Env) (net : Conn) (s : IRC) (w : World) :
    Option (Bool × IRC × World) :=
  match irc_disconnect E s w with
  | none => none
  | some (s1, w1) =>
    match irc_connect E net s1 w1 with
    | none => none
    | some (false, s2, w2) => some (false, s2, w2)
    | some (true, s2, w2) =>
      match reconnect_loop E s2.num_channels 0 s2 w2 with
      | none => none
      | some (s3, w3) => some (true, s3, w3)

/-! ## Sequences of operations -/

/-- The operations a caller can apply to a session, each with the outcome of
the system calls it makes. -/
inductive Op where
  | join (channel : List Nat) (group_num : Nat) (alloc : Bool) (junk : Nat → Channel)
  | rejoin (index : Int)
  | leave (index : Int)
  | leave_all
  | disconnect
  | reconnect (net : Conn)

/-- Effect of one operation on the session and the world. -/
def step (E : Env) (s : IRC) (w : World) : Op → Option (IRC × World)
  | Op.join channel group_num alloc junk =>
    match irc_join_channel E s channel group_num alloc junk w with
    | none => none
    | some (_, s1, w1) => some (s1, w1)
  | Op.rejoin index => irc_rejoin_channel E s index w
  | Op.leave index =>
    match irc_leave_channel E s index w with
    | none => none
    | some (_, s1, w1) => some (s1, w1)
  | Op.leave_all => irc_leave_all_channels E s w
  | Op.disconnect => irc_disconnect E s w
  | Op.reconnect net =>
    match irc_reconnect E net s w with
    | none => none
    | some (_, s1, w1) => some (s1, w1)

/-- Effect of a sequence of operations, first to last. -/
def run (E : Env) : List Op → IRC → World → Option (IRC × World)
  | [], s, w => some (s, w)
  | op :: ops, s, w =>
    match step E s w op with
    | none => none
    | some (s1, w1) => run E ops s1 w1

/-- The names carried by the live entries, in index order. -/
def live_names (s : IRC) : List (List Nat) := (live s).map (fun c => cstr c.name)

/-- No two distinct live entries carry the same name. -/
def NamesUnique (s : IRC) : Prop := (live_names s).Nodup

instance (s : IRC) : Decidable (NamesUnique s) := by
  unfold NamesUnique; infer_instance

/-- The operations under which name uniqueness is kept: a join that grows the
registry (`group_num >= size_channels`, `realloc` succeeding for
`group_num + 1` entries) with a name that fits the field with its terminator
and that no live entry carries; a rejoin of a live index; a leave of the last
live index; a disconnect; a reconnect. -/
def admissible (E : Env) (s : IRC) : Op → Bool
  | Op.join channel group_num alloc _ =>
    decide (s.size_channels ≤ group_num) && alloc && decide (group_num + 1 < 4294967296)
      && decide (strlen channel < E.cap)
      && (scan (fun c => streq channel c.name) (live s) 0).isNone
  | Op.rejoin index => decide (0 ≤ index) && decide (index < s.num_channels)
  | Op.leave index => decide (0 < s.num_channels) && decide (index + 1 = s.num_channels)
  | Op.leave_all => false
  | Op.disconnect => true
  | Op.reconnect _ => true

/-- Effect of a sequence of operations each of which is admissible in the
state it is applied to; `none` when one is not. -/
def run_admissible (E : Env) : List Op → IRC → World → Option (IRC × World)
  | [], s, w => some (s, w)
  | op :: ops, s, w =>
    if admissible E s op then
      match step E s w op with
      | none => none
      | some (s1, w1) => run_admissible E ops s1 w1
    else none

/-- Shape of the registry that every admissible sequence keeps: the live
count does not exceed `size_channels`, which does not exceed the number of
allocated entries and fits 32 bits, and live names are pairwise distinct. -/
def Inv (s : IRC) : Prop :=
  s.num_channels ≤ s.size_channels ∧ s.size_channels ≤ s.channels.length ∧
    s.size_channels < 4294967296 ∧ NamesUnique s

/-! ## Concrete inputs -/

/-- An environment in which every `send(2)` call accepts all the bytes offered,
the name field holds 50 bytes and the bot is called `toxirc`. -/
def env_full : Env := ⟨fun _ n => n, 50, bytes "toxirc"⟩

/-- An environment in which the first four `send(2)` calls accept all the
bytes offered and every later call fails with -1 (the connection is lost);
the name field holds 50 bytes and the bot is called `toxirc`. -/
def env_drop : Env := ⟨fun t n => if t < 4 then (n : Int) else -1, 50, bytes "toxirc"⟩

/-- An environment in which the first `send(2)` call fails with -1 and every
later call accepts all the bytes offered. -/
def env_quit_fails : Env := ⟨fun t n => if t = 0 then -1 else (n : Int), 50, bytes "toxirc"⟩

/-- The world before any output. -/
def world0 : World := ⟨0, [], []⟩

/-- Content of fresh memory used in the examples: entries that are not zero. -/
def junk7 : Nat → Channel := fun _ => ⟨[120, 121, 122], 7, true⟩

/-- A registry holding `#a` (group 0) and `#b` (group 1), both joined, on
socket 3, with 50-byte name fields. -/
def two_joined : IRC :=
  { channels := [⟨bytes "#a" ++ List.replicate 48 0, 0, true⟩,
                 ⟨bytes "#b" ++ List.replicate 48 0, 1, true⟩]
    num_channels := 2
    size_channels := 2
    sock := 3
    connected := true }

/-- A sequence of admissible operations: join `#a` and `#b`, disconnect,
reconnect on socket 4, rejoin index 0, leave index 1, join `#c`. -/
def sample_ops : List Op :=
  [Op.join (bytes "#a") 0 true junk7, Op.join (bytes "#b") 1 true junk7, Op.disconnect,
   Op.reconnect ⟨0, [⟨4, 0⟩]⟩, Op.rejoin 0, Op.leave 1, Op.join (bytes "#c") 2 true junk7]

/-- A text of 495 bytes `x`: with channel `#c` and author `a` the rendered
`PRIVMSG` line is exactly 512 bytes long. -/
def text495 : List Nat := List.replicate 495 120

/-- The `JOIN` line as the wire table gives it. -/
def join_line (channel : List Nat) : List Nat := bytes "JOIN " ++ cstr channel ++ bytes "\n"

/-- The bytes `irc_send_fmt` hands to `irc_send` for a format and its
arguments: the rendered line when it is at most 511 bytes long, else its first
511 bytes and a NUL. -/
def fmt_req (fmt : List Nat) (args : List (List Nat)) : List Nat :=
  if (render fmt args).length ≤ 511 then render fmt args
  else (render fmt args).take 511 ++ [0]

/-- The `PRIVMSG` line as the wire table gives it. -/
def privmsg_line (channel author text : List Nat) : List Nat :=
  bytes "PRIVMSG " ++ cstr channel ++ bytes " :<" ++ cstr author ++ bytes "> " ++ cstr text
    ++ bytes "\n"

/-! ## The framed sender: lemmas -/

theorem send_loop_total (E : Env) (sock : Int) (msg : List Nat) (len : Int) :
    ∀ (fuel : Nat) (sent : Int) (w : World), (len - sent).toNat ≤ fuel →
      ∃ r cs, send_loop E sock msg len fuel sent w
        = some (r, ⟨w.tick + cs.length, w.calls ++ cs, w.reqs⟩) := by
  intro fuel
  induction fuel with
  | zero =>
    intro sent w h
    have : ¬ sent < len := by omega
    exact ⟨sent, [], by simp [send_loop, this]⟩
  | succ k ih =>
    intro sent w h
    by_cases hlt : sent < len
    · by_cases hg : E.send w.tick (len - sent).toNat ≤ 0
      · exact ⟨-1, [⟨sock, (msg.drop sent.toNat).take (len - sent).toNat, E.send w.tick (len - sent).toNat⟩],
          by simp [send_loop, hlt, hg]⟩
      · obtain ⟨r, cs, hr⟩ := ih (sent + E.send w.tick (len - sent).toNat)
          ⟨w.tick + 1, w.calls ++ [⟨sock, (msg.drop sent.toNat).take (len - sent).toNat,
            E.send w.tick (len - sent).toNat⟩], w.reqs⟩ (by omega)
        refine ⟨r, ⟨sock, (msg.drop sent.toNat).take (len - sent).toNat,
            E.send w.tick (len - sent).toNat⟩ :: cs, ?_⟩
        simp only [send_loop, hlt, hg, if_true, if_false]
        rw [hr]
        simp [Nat.add_assoc, Nat.add_comm 1]
    · exact ⟨sent, [], by simp [send_loop, hlt]⟩

theorem irc_send_total (E : Env) (sock : Int) (msg : List Nat) (len : Int) (w : World) :
    ∃ r cs, irc_send E sock msg len w
      = some (r, ⟨w.tick + cs.length, w.calls ++ cs, w.reqs ++ [(sock, msg.take len.toNat)]⟩) := by
  unfold irc_send
  by_cases hs : sock < 0
  · exact ⟨-1, [], by simp [hs]⟩
  · obtain ⟨r, cs, h⟩ := send_loop_total E sock msg len len.toNat 0
      ⟨w.tick, w.calls, w.reqs ++ [(sock, msg.take len.toNat)]⟩ (by simp)
    exact ⟨r, cs, by simp [hs, h]⟩

/-- The length `irc_send_fmt` passes on: the rendered length clamped to 512. -/
theorem fmt_len_bounds (line : List Nat) :
    0 ≤ (if (line.length : Int) > 512 then (512 : Int) else (line.length : Int)) ∧
    (if (line.length : Int) > 512 then (512 : Int) else (line.length : Int))
      ≤ ((line.take 511 ++ [0]).length : Int) := by
  simp only [List.length_append, List.length_take, List.length_singleton]
  split <;> omega

/-- The bytes `irc_send_fmt` hands to `irc_send`: the first `len` bytes of the
buffer are the line when it is at most 511 bytes long, else its first 511
bytes and a NUL. -/
theorem fmt_buf_take (fmt : List Nat) (args : List (List Nat)) :
    ((render fmt args).take 511 ++ [0]).take
      (if ((render fmt args).length : Int) > 512 then (512 : Int)
        else ((render fmt args).length : Int)).toNat
      = fmt_req fmt args := by
  unfold fmt_req
  by_cases h1 : (render fmt args).length ≤ 511
  · have h2 : ¬ ((render fmt args).length : Int) > 512 := by omega
    simp only [h1, h2, if_true, if_false, Int.toNat_ofNat]
    rw [List.take_append_of_le_length (by rw [List.length_take]; omega)]
    rw [List.take_take]
    simp
    exact h1
  · simp only [h1, if_false]
    apply List.take_of_length_le
    simp only [List.length_append, List.length_take, List.length_singleton]
    split <;> omega

theorem wire_cons (c : SendCall) (cs : List SendCall) :
    wire (c :: cs) = c.data.take c.ret.toNat ++ wire cs := by
  simp [wire, SendCall.accepted]

theorem send_loop_spec (E : Env) (sock : Int) (msg : List Nat) (n : Nat)
    (hbuf : n ≤ msg.length) (t0 : Nat) (horacle : ∀ t c, t0 ≤ t → E.send t c ≤ c) :
    ∀ (fuel k : Nat) (w : World), t0 ≤ w.tick → k ≤ n → n - k ≤ fuel →
      ∃ r cs, send_loop E sock msg (n : Int) fuel (k : Int) w
          = some (r, ⟨w.tick + cs.length, w.calls ++ cs, w.reqs⟩) ∧
        (r = -1 ↔ ∃ c ∈ cs, c.ret ≤ 0) ∧
        (r ≠ -1 → r = n ∧ wire cs = (msg.take n).drop k) ∧
        (∀ cs1 c cs2, cs = cs1 ++ c :: cs2 →
          c.sock = sock ∧ c.data = (msg.take n).drop (k + (wire cs1).length) ∧
          c.data ≠ [] ∧ c.ret = E.send (w.tick + cs1.length) c.data.length) := by
  intro fuel
  induction fuel with
  | zero =>
    intro k w ht hk hf
    have hkn : k = n := by omega
    subst hkn
    refine ⟨(k : Int), [], by simp [send_loop], ?_, ?_, ?_⟩
    · constructor
      · intro h; omega
      · rintro ⟨c, hc, _⟩; simp at hc
    · intro _; simp [wire]
    · intro cs1 c cs2 h; simp at h
  | succ f ih =>
    intro k w ht hk hf
    by_cases hlt : k < n
    · have hlt2 : (k : Int) < (n : Int) := by omega
      have hcount : ((n : Int) - (k : Int)).toNat = n - k := by omega
      have hdata : ((msg.drop k).take (n - k)) = (msg.take n).drop k := by
        rw [List.drop_take]
      have hdlen : ((msg.take n).drop k).length = n - k := by
        simp only [List.length_drop, List.length_take]; omega
      by_cases hg : E.send w.tick (n - k) ≤ 0
      · refine ⟨-1, [⟨sock, (msg.take n).drop k, E.send w.tick (n - k)⟩], ?_, ?_, ?_, ?_⟩
        · simp [send_loop, hlt2, hcount, hg, hdata]
        · simp [hg]
        · intro h; exact absurd rfl h
        · intro cs1 c cs2 h
          cases cs1 with
          | nil =>
            simp at h
            obtain ⟨h1, _⟩ := h
            subst h1
            have hne : (msg.take n).drop k ≠ [] := by
              intro h0; rw [h0] at hdlen; simp at hdlen; omega
            simp [wire, hdlen, hne]
          | cons a t => simp at h
      · have hle := horacle w.tick (n - k) ht
        obtain ⟨g, hgeq⟩ := Int.eq_ofNat_of_zero_le (by omega : 0 ≤ E.send w.tick (n - k))
        have hg1 : 0 < g := by omega
        have hg2 : g ≤ n - k := by omega
        obtain ⟨r, cs, hr, hiff, hok, hpos⟩ := ih (k + g)
          ⟨w.tick + 1, w.calls ++ [⟨sock, (msg.take n).drop k, E.send w.tick (n - k)⟩], w.reqs⟩
          (by simp only []; omega) (by omega) (by omega)
        refine ⟨r, ⟨sock, (msg.take n).drop k, E.send w.tick (n - k)⟩ :: cs, ?_, ?_, ?_, ?_⟩
        · simp only [send_loop, hlt2, hcount, hg, if_true, if_false, Int.toNat_ofNat, hdata]
          have hsum : (k : Int) + E.send w.tick (n - k) = ((k + g : Nat) : Int) := by
            rw [hgeq]; push_cast; ring
          rw [hsum, hr]
          simp [Nat.add_assoc, Nat.add_comm 1]
        · rw [hiff]
          constructor
          · rintro ⟨c, hc, hc2⟩
            exact ⟨c, List.mem_cons_of_mem _ hc, hc2⟩
          · rintro ⟨c, hc, hc2⟩
            rcases List.mem_cons.mp hc with h1 | h1
            · subst h1; exact absurd hc2 hg
            · exact ⟨c, h1, hc2⟩
        · intro hne
          obtain ⟨h1, h2⟩ := hok hne
          refine ⟨h1, ?_⟩
          rw [wire_cons, h2]
          simp only [hgeq, Int.toNat_ofNat]
          rw [← List.drop_drop, List.take_append_drop]
        · intro cs1 c cs2 h
          cases cs1 with
          | nil =>
            simp at h
            obtain ⟨h1, _⟩ := h
            subst h1
            have hne : (msg.take n).drop k ≠ [] := by
              intro h0; rw [h0] at hdlen; simp at hdlen; omega
            simp [wire, hdlen, hne]
          | cons a t =>
            simp at h
            obtain ⟨h1, h2⟩ := h
            obtain ⟨h3, h4, h5, h6⟩ := hpos t c cs2 h2
            refine ⟨h3, ?_, h5, ?_⟩
            · rw [h4, wire_cons, ← h1]
              simp only [hgeq, Int.toNat_ofNat, List.length_append, List.length_take, hdlen]
              congr 1
              omega
            · rw [h6]
              simp only [List.length_cons]
              congr 1
              omega
    · have hkn : k = n := by omega
      subst hkn
      refine ⟨(k : Int), [], by simp [send_loop], ?_, ?_, ?_⟩
      · constructor
        · intro h; omega
        · rintro ⟨c, hc, _⟩; simp at hc
      · intro _; simp [wire]
      · intro cs1 c cs2 h; simp at h



/-- C8: contract of `irc_send` for a length `len > 0` within the buffer and a
`send(2)` that never returns more than the count requested. On a negative
socket the result is -1 and no `send(2)` call is made. Otherwise the call
returns after finitely many `send(2)` calls `cs`; the result is -1 exactly
when one of them returned a value `<= 0`, and otherwise it is `len` and the
bytes accepted, concatenated, are `msg[0..len)`. Every call is made on `sock`,
offers the unsent rest of `msg[0..len)` (which is not empty) and gets the
oracle's answer for it. -/
theorem irc_send_contract (E : Env) (sock : Int) (msg : List Nat) (len : Int) (w : World)
    (hlen : 0 < len) (hbuf : len ≤ msg.length) (horacle : ∀ t c, E.send t c ≤ c) :
    (sock < 0 → irc_send E sock msg len w
        = some (-1, ⟨w.tick, w.calls, w.reqs ++ [(sock, msg.take len.toNat)]⟩)) ∧
    (0 ≤ sock → ∃ r cs, irc_send E sock msg len w
        = some (r, ⟨w.tick + cs.length, w.calls ++ cs,
            w.reqs ++ [(sock, msg.take len.toNat)]⟩) ∧
      (r = -1 ↔ ∃ c ∈ cs, c.ret ≤ 0) ∧
      (r ≠ -1 → r = len ∧ wire cs = msg.take len.toNat) ∧
      (∀ cs1 c cs2, cs = cs1 ++ c :: cs2 →
        c.sock = sock ∧ c.data = (msg.take len.toNat).drop (wire cs1).length ∧
        c.data ≠ [] ∧ c.ret = E.send (w.tick + cs1.length) c.data.length)) := by
  constructor
  · intro hs
    simp [irc_send, hs]
  · intro hs
    have hs2 : ¬ sock < 0 := by omega
    obtain ⟨n, hn⟩ := Int.eq_ofNat_of_zero_le (by omega : 0 ≤ len)
    subst hn
    have hbuf2 : n ≤ msg.length := by omega
    obtain ⟨r, cs, h1, h2, h3, h4⟩ := send_loop_spec E sock msg n hbuf2 0
      (fun t c _ => horacle t c) n 0
      ⟨w.tick, w.calls, w.reqs ++ [(sock, msg.take n)]⟩ (Nat.zero_le _) (by omega) (by omega)
    refine ⟨r, cs, ?_, h2, ?_, ?_⟩
    · simp only [irc_send, hs2, if_false, Int.toNat_ofNat]
      exact h1
    · intro hne
      simpa using h3 hne
    · intro cs1 c cs2 hcs
      simpa using h4 cs1 c cs2 hcs

/-- Witness for C8: the five bytes of `QUIT` on socket 3, every write complete. -/
theorem irc_send_contract_witness :
    (0 : Int) < 5 ∧ ((3 : Int) < 0 → irc_send env_full 3 (bytes "QUIT\n") 5 world0
        = some (-1, ⟨world0.tick, world0.calls,
            world0.reqs ++ [(3, (bytes "QUIT\n").take (5 : Int).toNat)]⟩)) ∧
    ((0 : Int) ≤ 3 → ∃ r cs, irc_send env_full 3 (bytes "QUIT\n") 5 world0
        = some (r, ⟨world0.tick + cs.length, world0.calls ++ cs,
            world0.reqs ++ [(3, (bytes "QUIT\n").take (5 : Int).toNat)]⟩) ∧
      (r = -1 ↔ ∃ c ∈ cs, c.ret ≤ 0) ∧
      (r ≠ -1 → r = 5 ∧ wire cs = (bytes "QUIT\n").take (5 : Int).toNat) ∧
      (∀ cs1 c cs2, cs = cs1 ++ c :: cs2 →
        c.sock = 3 ∧ c.data = ((bytes "QUIT\n").take (5 : Int).toNat).drop (wire cs1).length ∧
        c.data ≠ [] ∧ c.ret = env_full.send (world0.tick + cs1.length) c.data.length)) :=
  ⟨by decide, irc_send_contract env_full 3 (bytes "QUIT\n") 5 world0 (by decide) (by decide)
    (fun _ c => le_refl (c : Int))⟩

theorem wire_append (a b : List SendCall) : wire (a ++ b) = wire a ++ wire b := by
  simp [wire]

theorem on_wire_append (sock : Int) (a b : List Nat) :
    on_wire sock a ++ on_wire sock b = on_wire sock (a ++ b) := by
  unfold on_wire
  split <;> simp

theorem cooperative_from (E : Env) (t : Nat) (h : Cooperative E) : CooperativeFrom E t :=
  fun t1 c _ => h t1 c

theorem cooperative_from_mono (E : Env) (t0 t1 : Nat) (h : CooperativeFrom E t0)
    (hle : t0 ≤ t1) : CooperativeFrom E t1 :=
  fun t c ht => h t c (Nat.le_trans hle ht)

/-- On a valid socket and a network that is cooperative from the current call
on, `irc_send` returns `len` and puts exactly `msg[0..len)` on the wire. -/
theorem irc_send_wire (E : Env) (sock : Int) (msg : List Nat) (n : Nat) (w : World)
    (hco : CooperativeFrom E w.tick) (hs : 0 ≤ sock) (hbuf : n ≤ msg.length) :
    ∃ cs, irc_send E sock msg (n : Int) w
        = some ((n : Int), ⟨w.tick + cs.length, w.calls ++ cs, w.reqs ++ [(sock, msg.take n)]⟩) ∧
      wire cs = msg.take n := by
  have hs2 : ¬ sock < 0 := by omega
  obtain ⟨r, cs, h1, h2, h3, h4⟩ := send_loop_spec E sock msg n hbuf w.tick
    (fun t c ht => (hco t c ht).1) n 0
    ⟨w.tick, w.calls, w.reqs ++ [(sock, msg.take n)]⟩ (Nat.le_refl _) (by omega) (by omega)
  have hne : r ≠ -1 := by
    intro hr
    obtain ⟨c, hc, hret⟩ := h2.mp hr
    obtain ⟨cs1, cs2, hcs⟩ := List.append_of_mem hc
    obtain ⟨_, _, hdata, hsend⟩ := h4 cs1 c cs2 hcs
    have hpos : 0 < c.data.length := List.length_pos.mpr hdata
    have := (hco (w.tick + cs1.length) c.data.length (Nat.le_add_right _ _)).2 hpos
    rw [← hsend] at this
    omega
  obtain ⟨h5, h6⟩ := h3 hne
  refine ⟨cs, ?_, by simpa using h6⟩
  simp only [irc_send, hs2, if_false, Int.toNat_ofNat]
  subst h5
  exact h1

/-- Every call of `irc_send` returns; it records the buffer handed over, and
on a network that is cooperative from the current call on, the bytes it puts
on the wire are that buffer (none on a negative socket). -/
theorem irc_send_some (E : Env) (sock : Int) (msg : List Nat) (len : Int) (w : World) :
    ∃ r w1, irc_send E sock msg len w = some (r, w1) ∧
      w1.reqs = w.reqs ++ [(sock, msg.take len.toNat)] ∧
      ∃ cs, w1.calls = w.calls ++ cs ∧ w1.tick = w.tick + cs.length ∧
        (CooperativeFrom E w.tick → 0 ≤ len → len ≤ msg.length →
          wire cs = on_wire sock (msg.take len.toNat)) := by
  by_cases hs : sock < 0
  · refine ⟨-1, ⟨w.tick, w.calls, w.reqs ++ [(sock, msg.take len.toNat)]⟩, ?_, rfl, [],
      by simp, by simp, ?_⟩
    · simp [irc_send, hs]
    · intro _ _ _
      simp [wire, on_wire, hs]
  · by_cases hco : CooperativeFrom E w.tick ∧ 0 ≤ len ∧ len ≤ msg.length
    · obtain ⟨hco1, h0, hbuf⟩ := hco
      obtain ⟨n, hn⟩ := Int.eq_ofNat_of_zero_le h0
      subst hn
      obtain ⟨cs, h1, h2⟩ := irc_send_wire E sock msg n w hco1 (by omega) (by omega)
      refine ⟨_, _, h1, by simp, cs, rfl, rfl, ?_⟩
      intro _ _ _
      simp [on_wire, hs, h2]
    · obtain ⟨r, cs, h⟩ := irc_send_total E sock msg len w
      refine ⟨r, _, h, rfl, cs, rfl, rfl, ?_⟩
      intro h1 h2 h3
      exact absurd ⟨h1, h2, h3⟩ hco

/-- Every call of `irc_send_fmt` returns; the buffer handed to `irc_send` is
`fmt_req`, and on a network that is cooperative from the current call on
those bytes reach the wire (none on a negative socket). -/
theorem irc_send_fmt_some (E : Env) (sock : Int) (fmt : List Nat) (args : List (List Nat))
    (w : World) :
    ∃ r w1, irc_send_fmt E sock fmt args w = some (r, w1) ∧
      w1.reqs = w.reqs ++ [(sock, fmt_req fmt args)] ∧
      ∃ cs, w1.calls = w.calls ++ cs ∧ w1.tick = w.tick + cs.length ∧
        (CooperativeFrom E w.tick → wire cs = on_wire sock (fmt_req fmt args)) := by
  obtain ⟨r, w1, h1, h2, cs, h3, h4, h5⟩ := irc_send_some E sock
    ((render fmt args).take 511 ++ [0])
    (if ((render fmt args).length : Int) > 512 then 512 else ((render fmt args).length : Int)) w
  rw [fmt_buf_take] at h2 h5
  have hb := fmt_len_bounds (render fmt args)
  refine ⟨if r ≤ 0 then -1 else r, w1, ?_, h2, cs, h3, h4, fun hco => h5 hco hb.1 hb.2⟩
  unfold irc_send_fmt
  simp only [] at h1 ⊢
  rw [h1]
  by_cases hr : r ≤ 0 <;> simp [hr]

/-! ## The registry: lemmas -/

theorem update_at (chans : List Channel) (i : Nat) (f : Channel → Option Channel)
    (c c1 : Channel) (hc : chans[i]? = some c) (hf : f c = some c1) :
    update chans (i : Int) f = some (chans.set i c1) := by
  have h0 : ¬ ((i : Int) < 0) := by omega
  simp [update, h0, hc, hf]

theorem load_at (chans : List Channel) (i : Nat) : load chans (i : Int) = chans[i]? := by
  have h0 : ¬ ((i : Int) < 0) := by omega
  simp [load, h0]

theorem scan_map (p : Channel → Bool) (f : Channel → Channel) :
    ∀ (l : List Channel) (i : Nat), scan p (l.map f) i = scan (fun c => p (f c)) l i := by
  intro l
  induction l with
  | nil => intro i; rfl
  | cons a t ih => intro i; simp [scan, ih]

theorem scan_none_of_false (p : Channel → Bool) :
    ∀ (l : List Channel) (i : Nat), (∀ c ∈ l, p c = false) → scan p l i = none := by
  intro l
  induction l with
  | nil => intro i _; rfl
  | cons a t ih =>
    intro i h
    simp [scan, h a (List.mem_cons_self _ _)]
    exact ih _ (fun c hc => h c (List.mem_cons_of_mem _ hc))

/-- The loop of `irc_disconnect` clears the flag of the entries from `i` to
`num_channels - 1` and touches nothing else. -/
theorem disconnect_loop_spec :
    ∀ (fuel i : Nat) (s : IRC), s.num_channels ≤ s.channels.length →
      s.num_channels - i ≤ fuel →
      ∃ chans, disconnect_loop fuel i s = some { s with channels := chans } ∧
        ∀ j, chans[j]? = (s.channels[j]?).map (fun c =>
          if i ≤ j ∧ j < s.num_channels then { c with in_channel := false } else c) := by
  intro fuel
  induction fuel with
  | zero =>
    intro i s hwf hf
    have : ¬ i < s.num_channels := by omega
    refine ⟨s.channels, by simp [disconnect_loop, this], ?_⟩
    intro j
    have : ¬ (i ≤ j ∧ j < s.num_channels) := by omega
    simp [this]
  | succ f ih =>
    intro i s hwf hf
    by_cases hlt : i < s.num_channels
    · obtain ⟨c, hc⟩ : ∃ c, s.channels[i]? = some c :=
        ⟨s.channels[i], List.getElem?_eq_getElem (by omega)⟩
      have hup := update_at s.channels i (fun c => some { c with in_channel := false }) c _ hc rfl
      obtain ⟨chans, h1, h2⟩ := ih (i + 1)
        { s with channels := s.channels.set i { c with in_channel := false } }
        (by simpa using hwf) (by simp; omega)
      refine ⟨chans, ?_, ?_⟩
      · simp only [disconnect_loop, hlt, if_true, hup]
        exact h1
      · intro j
        rw [h2 j]
        simp only [List.getElem?_set]
        by_cases hij : i = j
        · subst hij
          have h3 : i < s.channels.length := by omega
          have h4 : ¬ (i + 1 ≤ i ∧ i < s.num_channels) := by omega
          simp [h3, h4, hc, hlt]
        · have h5 : (i + 1 ≤ j ∧ j < s.num_channels) ↔ (i ≤ j ∧ j < s.num_channels) := by omega
          simp [hij, h5]
    · refine ⟨s.channels, by simp [disconnect_loop, hlt], ?_⟩
      intro j
      have : ¬ (i ≤ j ∧ j < s.num_channels) := by omega
      simp [this]

theorem live_of_pointwise (s : IRC) (chans : List Channel) (f : Channel → Channel)
    (h : ∀ j, chans[j]? = (s.channels[j]?).map (fun c =>
      if 0 ≤ j ∧ j < s.num_channels then f c else c)) :
    chans.take s.num_channels = (live s).map f := by
  apply List.ext_getElem?
  intro j
  simp only [live, List.getElem?_take, List.getElem?_map]
  by_cases hj : j < s.num_channels
  · simp [hj, h j]
  · simp [hj]

theorem frame_of_pointwise (s : IRC) (chans : List Channel) (i : Nat) (f : Channel → Channel)
    (hf : ∀ c, (f c).name = c.name ∧ (f c).group_num = c.group_num)
    (h : ∀ j, chans[j]? = (s.channels[j]?).map (fun c =>
      if i ≤ j ∧ j < s.num_channels then f c else c)) :
    chans.map (fun c => (c.name, c.group_num)) = s.channels.map (fun c => (c.name, c.group_num)) := by
  apply List.ext_getElem?
  intro j
  simp only [List.getElem?_map, h j, Option.map_map]
  cases s.channels[j]? with
  | none => rfl
  | some c =>
    simp only [Option.map_some', Function.comp]
    split
    · rw [(hf c).1, (hf c).2]
    · rfl

theorem take_quit : (bytes "QUIT\n").take (5 : Int).toNat = bytes "QUIT\n" := by decide

theorem take_pass : (bytes "PASS none\n").take (10 : Int).toNat = bytes "PASS none\n" := by
  decide

/-- Effect of `irc_disconnect`: `QUIT` is handed to the sender, `connected`
is cleared and so is the flag of every live entry. -/
theorem irc_disconnect_spec (E : Env) (s : IRC) (w : World)
    (hwf : s.num_channels ≤ s.channels.length) :
    ∃ chans w1, irc_disconnect E s w
        = some ({ s with connected := false, channels := chans }, w1) ∧
      (∀ j, chans[j]? = (s.channels[j]?).map (fun c =>
        if 0 ≤ j ∧ j < s.num_channels then { c with in_channel := false } else c)) ∧
      w1.reqs = w.reqs ++ [(s.sock, bytes "QUIT\n")] ∧
      ∃ cs, w1.calls = w.calls ++ cs ∧ w1.tick = w.tick + cs.length ∧
        (CooperativeFrom E w.tick → wire cs = on_wire s.sock (bytes "QUIT\n")) := by
  obtain ⟨r, w1, hsend, hreq, cs, hcs, htk, hw⟩ := irc_send_some E s.sock (bytes "QUIT\n") 5 w
  obtain ⟨chans, hloop, hpt⟩ := disconnect_loop_spec s.num_channels 0
    { s with connected := false } hwf (by simp)
  refine ⟨chans, w1, ?_, hpt, ?_, cs, hcs, htk, ?_⟩
  · simp only [irc_disconnect, hsend, hloop]
  · rw [hreq, take_quit]
  · intro hco
    rw [hw hco (by decide) (by decide), take_quit]

/-- C6: `irc_disconnect` on a session whose live count does not exceed the
allocated block returns; afterwards `irc_in_channel` is false for every name,
`irc_get_channel_index` and `irc_get_channel_group` answer as before,
`num_channels` and the name and group number of every entry are unchanged,
`connected` is false, and the one line handed to the sender is `QUIT`. -/
theorem irc_disconnect_frame (E : Env) (s : IRC) (w : World)
    (hwf : s.num_channels ≤ s.channels.length) :
    ∃ s1 w1, irc_disconnect E s w = some (s1, w1) ∧
      (∀ name, irc_in_channel s1 name = false) ∧
      (∀ name, irc_get_channel_index s1 name = irc_get_channel_index s name) ∧
      (∀ name, irc_get_channel_group s1 name = irc_get_channel_group s name) ∧
      s1.num_channels = s.num_channels ∧
      s1.channels.map (fun c => (c.name, c.group_num))
        = s.channels.map (fun c => (c.name, c.group_num)) ∧
      s1.connected = false ∧
      w1.reqs = w.reqs ++ [(s.sock, bytes "QUIT\n")] := by
  obtain ⟨chans, w1, hdis, hpt, hreq, _⟩ := irc_disconnect_spec E s w hwf
  have hlive : live ({ s with connected := false, channels := chans } : IRC)
      = (live s).map (fun c => { c with in_channel := false }) :=
    live_of_pointwise s chans _ hpt
  refine ⟨{ s with connected := false, channels := chans }, w1, hdis, ?_, ?_, ?_, rfl, ?_, rfl,
    hreq⟩
  · intro name
    simp only [irc_in_channel, hlive, scan_map]
    rw [scan_none_of_false]
    · rfl
    · intro c _; simp
  · intro name
    simp only [irc_get_channel_index, hlive, scan_map]
  · intro name
    simp only [irc_get_channel_group, hlive, scan_map]
  · exact frame_of_pointwise s chans 0 (fun c => { c with in_channel := false })
      (fun c => ⟨rfl, rfl⟩) hpt

/-- Witness for C6: the session with `#a` and `#b` joined. -/
theorem irc_disconnect_frame_witness :
    ∃ s1 w1, irc_disconnect env_full two_joined world0 = some (s1, w1) ∧
      (∀ name, irc_in_channel s1 name = false) ∧
      (∀ name, irc_get_channel_index s1 name = irc_get_channel_index two_joined name) ∧
      (∀ name, irc_get_channel_group s1 name = irc_get_channel_group two_joined name) ∧
      s1.num_channels = two_joined.num_channels ∧
      s1.channels.map (fun c => (c.name, c.group_num))
        = two_joined.channels.map (fun c => (c.name, c.group_num)) ∧
      s1.connected = false ∧
      w1.reqs = world0.reqs ++ [(two_joined.sock, bytes "QUIT\n")] :=
  irc_disconnect_frame env_full two_joined world0 (by decide)

/-! ## Evaluations at concrete inputs -/

/-- C1: on a fresh session, `irc_join_channel(irc, "#longer", 0)` and then
`irc_join_channel(irc, "#ab", 0)` both return true; the second takes the
no-growth branch and copies three bytes over the first name, so the slot
holds `#abnger` and `irc_in_channel(irc, "#ab")` is false. -/
theorem join_over_longer_name_not_in_channel :
    ∃ s1 w1 s2 w2,
      irc_join_channel env_full irc_init (bytes "#longer") 0 true junk7 world0
        = some (true, s1, w1) ∧
      irc_join_channel env_full s1 (bytes "#ab") 0 true junk7 w1 = some (true, s2, w2) ∧
      irc_in_channel s2 (bytes "#ab") = false ∧
      live_names s2 = [bytes "#abnger"] :=
  ⟨_, _, _, _, rfl, rfl, by decide, by decide⟩

/-- C2: on a fresh session `irc_join_channel(irc, "#toxirc", 5)` returns true
and stores group number 5 in the one live entry, yet
`irc_get_channel_group(irc, "#toxirc")` returns 0, the index of the entry. -/
theorem get_channel_group_returns_index :
    ∃ s w,
      irc_join_channel env_full irc_init (bytes "#toxirc") 5 true junk7 world0
        = some (true, s, w) ∧
      (live s).map (fun c => (cstr c.name, c.group_num)) = [(bytes "#toxirc", 5)] ∧
      irc_get_channel_group s (bytes "#toxirc") = 0 :=
  ⟨_, _, rfl, by decide, by decide⟩

/-- C3: with `#a` and `#b` both joined, `irc_leave_all_channels` hands one
line to the sender, `PART #a`, and returns with `num_channels == 1`: after the
first leave the loop bound has dropped to 1 and the loop ends. -/
theorem leave_all_of_two_sends_one_part :
    ∃ s w,
      irc_leave_all_channels env_full two_joined world0 = some (s, w) ∧
      (∀ c ∈ live two_joined, c.in_channel = true) ∧
      two_joined.num_channels = 2 ∧
      w.reqs = [(3, bytes "PART #a\n")] ∧
      wire w.calls = bytes "PART #a\n" ∧
      s.num_channels = 1 :=
  ⟨_, _, rfl, by decide, by decide, by decide, by decide, by decide⟩

/-- C7: for channel `#c`, author `a` and a text of 495 bytes the rendered line
is exactly 512 bytes long; `irc_message` on socket 3, every write complete,
returns 512 but the bytes transmitted are the first 511 bytes of the line
followed by a NUL, not the line (whose last byte is the newline). -/
theorem message_of_512_bytes_loses_newline :
    ∃ w,
      irc_message env_full 3 (bytes "#c") (bytes "a") text495 world0 = some (512, w) ∧
      (privmsg_line (bytes "#c") (bytes "a") text495).length = 512 ∧
      wire w.calls = (privmsg_line (bytes "#c") (bytes "a") text495).take 511 ++ [0] ∧
      wire w.calls ≠ privmsg_line (bytes "#c") (bytes "a") text495 :=
  ⟨_, rfl, by decide, by decide, by decide⟩

/-- C9, as stated, fails: joining `#a` twice, with groups 0 and 1, on a fresh
session gives two live entries that carry the same name. -/
theorem join_twice_duplicates_name :
    ∃ s w,
      run env_full [Op.join (bytes "#a") 0 true junk7, Op.join (bytes "#a") 1 true junk7]
        irc_init world0 = some (s, w) ∧
      live_names s = [bytes "#a", bytes "#a"] ∧
      ¬ NamesUnique s :=
  ⟨_, _, rfl, by decide, by decide⟩

/-- C10: with `#a` at index 0 and `#b` at index 1, `irc_leave_channel(irc, 0)`
returns true and leaves `num_channels == 1`; `#b`, found at index 1 before the
call, is no longer found by `irc_get_channel_index`, because the live range
now ends before its slot. -/
theorem leave_first_loses_last :
    ∃ s w,
      irc_leave_channel env_full two_joined 0 world0 = some (true, s, w) ∧
      NamesUnique two_joined ∧
      irc_get_channel_index two_joined (bytes "#b") = 1 ∧
      irc_get_channel_index s (bytes "#b") = -1 ∧
      s.num_channels = 1 ∧
      s.channels.map (fun c => cstr c.name) = [[], bytes "#b"] :=
  ⟨_, _, rfl, by decide, by decide, by decide, by decide, by decide⟩

/-! ## The connection manager: `irc_connect` -/

theorem connect_loop_all_fail :
    ∀ (cands : List Cand) (sock : Int), (∀ c ∈ cands, c.sock = -1 ∨ c.conn = -1) →
      connect_loop cands sock = (cands.getLast?.map Cand.sock).getD sock := by
  intro cands
  induction cands with
  | nil => intro sock _; rfl
  | cons a t ih =>
    intro sock h
    have ha := h a (List.mem_cons_self _ _)
    have ht := ih a.sock (fun c hc => h c (List.mem_cons_of_mem _ hc))
    have hlast : ((a :: t).getLast?.map Cand.sock).getD sock
        = (t.getLast?.map Cand.sock).getD a.sock := by
      cases t with
      | nil => rfl
      | cons b u =>
        rw [List.getLast?_cons_cons, List.getLast?_eq_getLast _ (List.cons_ne_nil _ _)]
        rfl
    rw [hlast, ← ht]
    by_cases h1 : a.sock = -1
    · simp [connect_loop, h1]
    · have h2 : a.conn = -1 := by tauto
      simp [connect_loop, h1, h2]

/-- Effect of `irc_connect`: false and nothing else when resolution fails;
otherwise true, whatever the candidate loop did, with the three registration
lines handed to the sender. -/
theorem irc_connect_spec (E : Env) (net : Conn) (s : IRC) (w : World) :
    (net.gai ≠ 0 → irc_connect E net s w = some (false, s, w)) ∧
    (net.gai = 0 → ∃ w1, irc_connect E net s w
        = some (true, { s with sock := connect_loop net.cands s.sock, connected := true }, w1) ∧
      w1.reqs = w.reqs ++ [(connect_loop net.cands s.sock, bytes "PASS none\n"),
        (connect_loop net.cands s.sock, fmt_req (bytes "NICK %s\n") [E.nick]),
        (connect_loop net.cands s.sock,
          fmt_req (bytes "USER %s %s %s :%s\n") [E.nick, E.nick, E.nick, E.nick])] ∧
      ∃ cs, w1.calls = w.calls ++ cs ∧ w1.tick = w.tick + cs.length ∧
        (CooperativeFrom E w.tick → wire cs = on_wire (connect_loop net.cands s.sock)
          (bytes "PASS none\n" ++ fmt_req (bytes "NICK %s\n") [E.nick]
            ++ fmt_req (bytes "USER %s %s %s :%s\n") [E.nick, E.nick, E.nick, E.nick]))) := by
  constructor
  · intro h
    simp [irc_connect, h]
  · intro hres
    obtain ⟨r1, w1, h1, q1, cs1, c1, t1, v1⟩ := irc_send_some E (connect_loop net.cands s.sock)
      (bytes "PASS none\n") 10 w
    obtain ⟨r2, w2, h2, q2, cs2, c2, t2, v2⟩ := irc_send_fmt_some E
      (connect_loop net.cands s.sock) (bytes "NICK %s\n") [E.nick] w1
    obtain ⟨r3, w3, h3, q3, cs3, c3, t3, v3⟩ := irc_send_fmt_some E
      (connect_loop net.cands s.sock) (bytes "USER %s %s %s :%s\n")
      [E.nick, E.nick, E.nick, E.nick] w2
    refine ⟨w3, ?_, ?_, cs1 ++ cs2 ++ cs3, ?_, ?_, ?_⟩
    · simp only [irc_connect, hres, ne_eq, not_true_eq_false, if_false, h1, h2, h3]
    · rw [q3, q2, q1, take_pass]
      simp
    · rw [c3, c2, c1]
      simp
    · rw [t3, t2, t1]
      simp only [List.length_append]
      omega
    · intro hco
      have hco2 : CooperativeFrom E w1.tick :=
        cooperative_from_mono E _ _ hco (by rw [t1]; omega)
      have hco3 : CooperativeFrom E w2.tick :=
        cooperative_from_mono E _ _ hco (by rw [t2, t1]; omega)
      rw [wire_append, wire_append, v1 hco (by decide) (by decide), v2 hco2, v3 hco3, take_pass,
        on_wire_append, on_wire_append]

/-- C4: when address resolution succeeds and no candidate can be connected
(for each one `socket` or `connect` returns -1, or there is none),
`irc_connect` still returns true and sets `connected`; `irc->sock` holds the
last candidate's socket value, or the old one when there is no candidate. -/
theorem irc_connect_true_without_connection (E : Env) (net : Conn) (s : IRC) (w : World)
    (hres : net.gai = 0) (hfail : ∀ c ∈ net.cands, c.sock = -1 ∨ c.conn = -1) :
    ∃ s1 w1, irc_connect E net s w = some (true, s1, w1) ∧
      s1.connected = true ∧
      s1.sock = (net.cands.getLast?.map Cand.sock).getD s.sock := by
  obtain ⟨w1, h1, _⟩ := (irc_connect_spec E net s w).2 hres
  exact ⟨_, w1, h1, rfl, connect_loop_all_fail net.cands s.sock hfail⟩

/-- Witness for C4: resolution succeeds with two candidates; `socket` fails for
the first and `connect` fails for the second. -/
theorem irc_connect_true_without_connection_witness :
    (∀ c ∈ [(⟨-1, 0⟩ : Cand), ⟨4, -1⟩], c.sock = -1 ∨ c.conn = -1) ∧
    ∃ s1 w1, irc_connect env_full ⟨0, [⟨-1, 0⟩, ⟨4, -1⟩]⟩ irc_init world0 = some (true, s1, w1) ∧
      s1.connected = true ∧
      s1.sock = (([(⟨-1, 0⟩ : Cand), ⟨4, -1⟩]).getLast?.map Cand.sock).getD irc_init.sock :=
  ⟨by decide, irc_connect_true_without_connection env_full ⟨0, [⟨-1, 0⟩, ⟨4, -1⟩]⟩ irc_init world0
    rfl (by decide)⟩

/-! ## The connection manager: `irc_reconnect` -/

theorem render_join (a : List Nat) :
    render (bytes "JOIN %s\n") [a] = join_line a := by
  rfl

theorem fmt_req_join (a : List Nat) (h : strlen a ≤ 505) :
    fmt_req (bytes "JOIN %s\n") [a] = join_line a := by
  have hlen : (join_line a).length ≤ 511 := by
    have h5 : (bytes "JOIN ").length = 5 := by decide
    have h1 : (bytes "\n").length = 1 := by decide
    simp only [join_line, List.length_append, h5, h1]
    unfold strlen at h
    omega
  simp only [fmt_req, render_join, hlen, if_true]

theorem irc_rejoin_channel_spec (E : Env) (s : IRC) (i : Nat) (w : World) (c : Channel)
    (hc : s.channels[i]? = some c) :
    ∃ w1, irc_rejoin_channel E s (i : Int) w
        = some ({ s with channels := s.channels.set i { c with in_channel := true } }, w1) ∧
      w1.reqs = w.reqs ++ [(s.sock, fmt_req (bytes "JOIN %s\n") [c.name])] ∧
      ∃ cs, w1.calls = w.calls ++ cs ∧ w1.tick = w.tick + cs.length ∧
        (CooperativeFrom E w.tick →
          wire cs = on_wire s.sock (fmt_req (bytes "JOIN %s\n") [c.name])) := by
  have hi : i < s.channels.length := by
    by_contra hcon
    rw [List.getElem?_eq_none (by omega)] at hc
    exact absurd hc (by simp)
  have hup := update_at s.channels i (fun c => some { c with in_channel := true }) c _ hc rfl
  have hload : load (s.channels.set i { c with in_channel := true }) (i : Int)
      = some { c with in_channel := true } := by
    rw [load_at, List.getElem?_set]
    simp [hi]
  obtain ⟨r, w1, h1, h2, h3⟩ := irc_send_fmt_some E s.sock (bytes "JOIN %s\n") [c.name] w
  refine ⟨w1, ?_, h2, h3⟩
  simp only [irc_rejoin_channel, hup, hload, h1]

/-- The replay loop rejoins the entries from `i` to `num_channels - 1` in
index order: it sets their flag, touches nothing else in the session, and
hands one `JOIN` request per entry to the sender. -/
theorem reconnect_loop_spec (E : Env) :
    ∀ (fuel i : Nat) (s : IRC) (w : World), s.num_channels ≤ s.channels.length →
      s.num_channels - i ≤ fuel →
      ∃ chans w1, reconnect_loop E fuel i s w = some ({ s with channels := chans }, w1) ∧
        (∀ j, chans[j]? = (s.channels[j]?).map (fun c =>
          if i ≤ j ∧ j < s.num_channels then { c with in_channel := true } else c)) ∧
        w1.reqs = w.reqs ++ ((live s).drop i).map
          (fun c => (s.sock, fmt_req (bytes "JOIN %s\n") [c.name])) ∧
        ∃ cs, w1.calls = w.calls ++ cs ∧ w1.tick = w.tick + cs.length ∧
          (CooperativeFrom E w.tick → wire cs = on_wire s.sock
            (((live s).drop i).map (fun c => fmt_req (bytes "JOIN %s\n") [c.name])).flatten) := by
  intro fuel
  induction fuel with
  | zero =>
    intro i s w hwf hf
    have hn : ¬ i < s.num_channels := by omega
    have hnil : (live s).drop i = [] := List.drop_eq_nil_of_le (by simp [live]; omega)
    refine ⟨s.channels, w, by simp [reconnect_loop, hn], ?_, ?_, [], by simp, by simp, ?_⟩
    · intro j
      have : ¬ (i ≤ j ∧ j < s.num_channels) := by omega
      simp [this]
    · rw [hnil]
      simp
    · intro _
      rw [hnil]
      simp [wire, on_wire]
  | succ f ih =>
    intro i s w hwf hf
    by_cases hlt : i < s.num_channels
    · have hi : i < s.channels.length := by omega
      obtain ⟨c, hc⟩ : ∃ c, s.channels[i]? = some c :=
        ⟨s.channels[i], List.getElem?_eq_getElem hi⟩
      obtain ⟨w1, hre, hreq1, cs1, hcs1, htk1, hw1⟩ := irc_rejoin_channel_spec E s i w c hc
      obtain ⟨chans, w2, h1, h2, h3, cs2, hcs2, htk2, hw2⟩ := ih (i + 1)
        { s with channels := s.channels.set i { c with in_channel := true } } w1
        (by simpa using hwf) (by simp; omega)
      have hlive1 : (live { s with channels := s.channels.set i { c with in_channel := true } }).drop
          (i + 1) = (live s).drop (i + 1) := by
        simp only [live, List.set_take]
        exact List.drop_set_of_lt _ _ (by omega)
      have hlive2 : (live s).drop i = c :: (live s).drop (i + 1) := by
        have hlen : i < (live s).length := by simp [live]; omega
        rw [List.drop_eq_getElem_cons hlen]
        congr 1
        have : (live s)[i]? = some c := by
          simp only [live, List.getElem?_take, hlt, if_true, hc]
        rw [List.getElem?_eq_getElem hlen] at this
        exact Option.some.inj this
      refine ⟨chans, w2, ?_, ?_, ?_, cs1 ++ cs2, ?_, ?_, ?_⟩
      · simp only [reconnect_loop, hlt, if_true, hre]
        exact h1
      · intro j
        rw [h2 j]
        simp only [List.getElem?_set]
        by_cases hij : i = j
        · subst hij
          have h4 : ¬ (i + 1 ≤ i ∧ i < s.num_channels) := by omega
          simp [hi, h4, hc, hlt]
        · have h5 : (i + 1 ≤ j ∧ j < s.num_channels) ↔ (i ≤ j ∧ j < s.num_channels) := by omega
          simp [hij, h5]
      · rw [h3, hreq1, hlive1, hlive2]
        simp
      · rw [hcs2, hcs1, List.append_assoc]
      · rw [htk2, htk1, List.length_append]; omega
      · intro hco
        have hco2 : CooperativeFrom E w1.tick :=
          cooperative_from_mono E _ _ hco (by rw [htk1]; omega)
        rw [wire_append, hw1 hco, hw2 hco2, hlive1, hlive2, on_wire_append]
        simp
    · have hnil : (live s).drop i = [] := List.drop_eq_nil_of_le (by simp [live]; omega)
      refine ⟨s.channels, w, by simp [reconnect_loop, hlt], ?_, ?_, [], by simp, by simp, ?_⟩
      · intro j
        have : ¬ (i ≤ j ∧ j < s.num_channels) := by omega
        simp [this]
      · rw [hnil]
        simp
      · intro _
        rw [hnil]
        simp [wire, on_wire]

/-- Effect of `irc_reconnect`. When resolution fails the result is false and
the session is the disconnected one. Otherwise the result is true and the
call is `irc_disconnect`, then `irc_connect`, then the replay: the flag of
every live entry is set, the lines handed to the sender are `QUIT`, the
registration lines and one `JOIN` request per live entry in index order, and
the `send(2)` calls made after the registration (`cs`) put the `JOIN` requests
on the wire when the network is cooperative from there on. -/
theorem irc_reconnect_spec (E : Env) (net : Conn) (s : IRC) (w : World)
    (hwf : s.num_channels ≤ s.channels.length) :
    (net.gai ≠ 0 → ∃ chans w1, irc_reconnect E net s w
        = some (false, { s with connected := false, channels := chans }, w1) ∧
      (∀ j, chans[j]? = (s.channels[j]?).map (fun c =>
        if 0 ≤ j ∧ j < s.num_channels then { c with in_channel := false } else c))) ∧
    (net.gai = 0 → ∃ chans1 wd wc chans w1 cs,
      irc_disconnect E s w = some ({ s with connected := false, channels := chans1 }, wd) ∧
      irc_connect E net { s with connected := false, channels := chans1 } wd
        = some (true, { s with channels := chans1, sock := connect_loop net.cands s.sock,
                               connected := true }, wc) ∧
      irc_reconnect E net s w
        = some (true, { s with channels := chans, sock := connect_loop net.cands s.sock,
                               connected := true }, w1) ∧
      (∀ j, chans[j]? = (s.channels[j]?).map (fun c =>
        if 0 ≤ j ∧ j < s.num_channels then { c with in_channel := true } else c)) ∧
      w1.reqs = w.reqs ++
        [(s.sock, bytes "QUIT\n"), (connect_loop net.cands s.sock, bytes "PASS none\n"),
         (connect_loop net.cands s.sock, fmt_req (bytes "NICK %s\n") [E.nick]),
         (connect_loop net.cands s.sock,
           fmt_req (bytes "USER %s %s %s :%s\n") [E.nick, E.nick, E.nick, E.nick])]
        ++ (live s).map
          (fun c => (connect_loop net.cands s.sock, fmt_req (bytes "JOIN %s\n") [c.name])) ∧
      w1.calls = wc.calls ++ cs ∧ w1.tick = wc.tick + cs.length ∧
      (CooperativeFrom E wc.tick → wire cs = on_wire (connect_loop net.cands s.sock)
        ((live s).map (fun c => fmt_req (bytes "JOIN %s\n") [c.name])).flatten)) := by
  obtain ⟨chans1, w1, hdis, hpt1, hreq1, cs1, hcs1, _, hw1⟩ := irc_disconnect_spec E s w hwf
  constructor
  · intro hres
    refine ⟨chans1, w1, ?_, hpt1⟩
    simp only [irc_reconnect, hdis, (irc_connect_spec E net _ w1).1 hres]
  · intro hres
    obtain ⟨w2, hcon, hreq2, cs2, hcs2, _, hw2⟩ :=
      (irc_connect_spec E net { s with connected := false, channels := chans1 } w1).2 hres
    have hlen1 : chans1.length = s.channels.length := by
      have := congrArg List.length (frame_of_pointwise s chans1 0
        (fun c => { c with in_channel := false }) (fun c => ⟨rfl, rfl⟩) hpt1)
      simpa using this
    obtain ⟨chans2, w3, hloop, hpt2, hreq3, cs3, hcs3, htk3, hw3⟩ :=
      reconnect_loop_spec E s.num_channels 0
      { s with channels := chans1, sock := connect_loop net.cands s.sock, connected := true } w2
      (by simp only [hlen1]; exact hwf) (by simp)
    have hpt : ∀ j, chans2[j]? = (s.channels[j]?).map (fun c =>
        if 0 ≤ j ∧ j < s.num_channels then { c with in_channel := true } else c) := by
      intro j
      rw [hpt2 j]
      simp only [hpt1 j, Option.map_map]
      cases s.channels[j]? with
      | none => rfl
      | some c =>
        simp only [Option.map_some', Function.comp]
        split <;> rfl
    have hlive1 :
        live { s with channels := chans1, sock := connect_loop net.cands s.sock, connected := true }
          = (live s).map (fun c => { c with in_channel := false }) :=
      live_of_pointwise s chans1 _ hpt1
    refine ⟨chans1, w1, w2, chans2, w3, cs3, hdis, hcon, ?_, hpt, ?_, hcs3, htk3, ?_⟩
    · simp only [irc_reconnect, hdis, hcon, hloop]
    · rw [hreq3, hreq2, hreq1, hlive1, List.drop_zero, List.map_map]
      simp only [List.append_assoc]
      rfl
    · intro hco
      rw [hw3 hco, hlive1, List.drop_zero, List.map_map]
      rfl

/-- C5, amended: `irc_reconnect` on a session whose live count does not exceed
the allocated block and whose live names are at most 505 bytes long returns;
it returns false when address resolution fails and true when a candidate
connects. When it returns true, `num_channels` and the name and group number
of every entry are unchanged and every live entry has `in_channel` set; and
when moreover `irc->sock` is then not negative and every `send(2)` call made
after the registration (`irc_disconnect` and `irc_connect` being over) accepts
at least one and at most the requested number of bytes, the bytes written
after the registration are exactly `JOIN <name_0>\n`, ...,
`JOIN <name_{n-1}>\n` in registry index order. -/
theorem irc_reconnect_replays_joins (E : Env) (net : Conn) (s : IRC) (w : World)
    (hwf : s.num_channels ≤ s.channels.length)
    (hfit : ∀ c ∈ live s, strlen c.name ≤ 505) :
    ∃ ok s1 w1, irc_reconnect E net s w = some (ok, s1, w1) ∧
      (net.gai ≠ 0 → ok = false) ∧
      (net.gai = 0 → (∃ c ∈ net.cands, c.sock ≠ -1 ∧ c.conn ≠ -1) → ok = true) ∧
      (ok = true →
        s1.num_channels = s.num_channels ∧
        s1.channels.map (fun c => (c.name, c.group_num))
          = s.channels.map (fun c => (c.name, c.group_num)) ∧
        (live s1).length = s.num_channels ∧
        (∀ c ∈ live s1, c.in_channel = true) ∧
        s1.connected = true ∧
        ∃ sd wd sc wc cs,
          irc_disconnect E s w = some (sd, wd) ∧
          irc_connect E net sd wd = some (true, sc, wc) ∧
          s1.sock = sc.sock ∧
          w1.calls = wc.calls ++ cs ∧
          (0 ≤ s1.sock → CooperativeFrom E wc.tick →
            wire cs = ((live s).map (fun c => join_line c.name)).flatten)) := by
  have hjoin : (live s).map (fun c => fmt_req (bytes "JOIN %s\n") [c.name])
      = (live s).map (fun c => join_line c.name) :=
    List.map_congr_left (fun c hc => fmt_req_join c.name (hfit c hc))
  by_cases hres : net.gai = 0
  · obtain ⟨chans1, wd, wc, chans, w1, cs, hdis, hcon, hre, hpt, _, hcs, _, hw⟩ :=
      (irc_reconnect_spec E net s w hwf).2 hres
    have hlive :
        live { s with channels := chans, sock := connect_loop net.cands s.sock, connected := true }
          = (live s).map (fun c => { c with in_channel := true }) :=
      live_of_pointwise s chans _ hpt
    refine ⟨true, _, w1, hre, fun h => absurd hres h, fun _ _ => rfl, ?_⟩
    intro _
    refine ⟨rfl, ?_, ?_, ?_, rfl, _, wd, _, wc, cs, hdis, hcon, rfl, hcs, ?_⟩
    · exact frame_of_pointwise s chans 0 (fun c => { c with in_channel := true })
        (fun c => ⟨rfl, rfl⟩) hpt
    · rw [hlive]
      simp [live, hwf]
    · intro c hc
      rw [hlive] at hc
      obtain ⟨c0, _, hc0⟩ := List.mem_map.mp hc
      rw [← hc0]
    · intro hsock hco
      have hs : ¬ connect_loop net.cands s.sock < 0 := by
        have : (0 : Int) ≤ connect_loop net.cands s.sock := hsock
        omega
      rw [hw hco, hjoin]
      simp [on_wire, hs]
  · obtain ⟨chans, w1, hre, _⟩ := (irc_reconnect_spec E net s w hwf).1 hres
    refine ⟨false, _, w1, hre, fun _ => rfl, fun h => absurd h hres, ?_⟩
    intro h; exact absurd h (by simp)

/-- Witness for C5, amended: the session with `#a` and `#b`, a resolver that
gives one candidate, a connection that succeeds on socket 4 and a network on
which every write is complete. -/
theorem irc_reconnect_replays_joins_witness :
    CooperativeFrom env_full 0 ∧
    (∃ s1 w1, irc_reconnect env_full ⟨0, [⟨4, 0⟩]⟩ two_joined world0 = some (true, s1, w1) ∧
      s1.sock = 4) ∧
    ∃ ok s1 w1, irc_reconnect env_full ⟨0, [⟨4, 0⟩]⟩ two_joined world0 = some (ok, s1, w1) ∧
      ((⟨0, [⟨4, 0⟩]⟩ : Conn).gai ≠ 0 → ok = false) ∧
      ((⟨0, [⟨4, 0⟩]⟩ : Conn).gai = 0 →
        (∃ c ∈ (⟨0, [⟨4, 0⟩]⟩ : Conn).cands, c.sock ≠ -1 ∧ c.conn ≠ -1) → ok = true) ∧
      (ok = true →
        s1.num_channels = two_joined.num_channels ∧
        s1.channels.map (fun c => (c.name, c.group_num))
          = two_joined.channels.map (fun c => (c.name, c.group_num)) ∧
        (live s1).length = two_joined.num_channels ∧
        (∀ c ∈ live s1, c.in_channel = true) ∧
        s1.connected = true ∧
        ∃ sd wd sc wc cs,
          irc_disconnect env_full two_joined world0 = some (sd, wd) ∧
          irc_connect env_full ⟨0, [⟨4, 0⟩]⟩ sd wd = some (true, sc, wc) ∧
          s1.sock = sc.sock ∧
          w1.calls = wc.calls ++ cs ∧
          (0 ≤ s1.sock → CooperativeFrom env_full wc.tick →
            wire cs = ((live two_joined).map (fun c => join_line c.name)).flatten)) :=
  ⟨fun _ c _ => ⟨le_refl (c : Int), fun h => by simpa [env_full] using h⟩,
    ⟨_, _, rfl, by decide⟩,
    irc_reconnect_replays_joins env_full ⟨0, [⟨4, 0⟩]⟩ two_joined world0 (by decide) (by decide)⟩

/-- C5, as stated, fails: with `#a` and `#b` in the registry, a connection
that succeeds on socket 4 and a network that accepts `QUIT` and the three
registration lines completely and fails every later write with -1,
`irc_reconnect` returns true with both entries flagged `in_channel`; the two
`JOIN` writes are attempted and return -1, the results are not looked at, and
no byte is written after the registration, where the claim has
`JOIN #a\n`, `JOIN #b\n`. -/
theorem reconnect_true_joins_not_written :
    ∃ sd wd sc wc s1 w1,
      irc_disconnect env_drop two_joined world0 = some (sd, wd) ∧
      irc_connect env_drop ⟨0, [⟨4, 0⟩]⟩ sd wd = some (true, sc, wc) ∧
      irc_reconnect env_drop ⟨0, [⟨4, 0⟩]⟩ two_joined world0 = some (true, s1, w1) ∧
      s1.sock = 4 ∧
      (∀ c ∈ live s1, c.in_channel = true) ∧
      wire wc.calls
        = bytes "QUIT\nPASS none\nNICK toxirc\nUSER toxirc toxirc toxirc :toxirc\n" ∧
      w1.calls = wc.calls ++ [⟨4, bytes "JOIN #a\n", -1⟩, ⟨4, bytes "JOIN #b\n", -1⟩] ∧
      wire [(⟨4, bytes "JOIN #a\n", -1⟩ : SendCall), ⟨4, bytes "JOIN #b\n", -1⟩] = [] ∧
      ((live two_joined).map (fun c => join_line c.name)).flatten
        = bytes "JOIN #a\nJOIN #b\n" :=
  ⟨_, _, _, _, _, _, rfl, rfl, rfl, by decide, by decide, by decide, by decide, by decide,
    by decide⟩

/-- A failed `QUIT` does not matter to the replay: when the write of `QUIT` on
the old socket fails and every later write is complete, the bytes written
after the registration are the two `JOIN` lines. -/
theorem reconnect_joins_written_after_failed_quit :
    ∃ sd wd sc wc s1 w1 cs,
      irc_disconnect env_quit_fails two_joined world0 = some (sd, wd) ∧
      irc_connect env_quit_fails ⟨0, [⟨4, 0⟩]⟩ sd wd = some (true, sc, wc) ∧
      irc_reconnect env_quit_fails ⟨0, [⟨4, 0⟩]⟩ two_joined world0 = some (true, s1, w1) ∧
      wd.calls = [⟨3, bytes "QUIT\n", -1⟩] ∧
      w1.calls = wc.calls ++ cs ∧
      cs = [⟨4, bytes "JOIN #a\n", 8⟩, ⟨4, bytes "JOIN #b\n", 8⟩] ∧
      wire cs = bytes "JOIN #a\nJOIN #b\n" :=
  ⟨_, _, _, _, _, _, [⟨4, bytes "JOIN #a\n", 8⟩, ⟨4, bytes "JOIN #b\n", 8⟩],
    rfl, rfl, rfl, by decide, by decide, rfl, by decide⟩

/-- The missing test of `irc_connect` seen through `irc_reconnect`: when the
one candidate's `socket()` fails, `irc_reconnect` still returns true with both
entries flagged `in_channel`, `irc->sock` is -1, and the only bytes written
by the call are the `QUIT` on the old socket. -/
theorem reconnect_true_on_failed_socket :
    ∃ s1 w1,
      irc_reconnect env_full ⟨0, [⟨-1, 0⟩]⟩ two_joined world0 = some (true, s1, w1) ∧
      s1.sock = -1 ∧
      (∀ c ∈ live s1, c.in_channel = true) ∧
      wire w1.calls = bytes "QUIT\n" :=
  ⟨_, _, rfl, by decide, by decide, by decide⟩

/-! ## Name uniqueness under admissible operations -/

theorem cstr_memcpy_zero (a : List Nat) (cap : Nat) :
    cstr (cstr a ++ (List.replicate cap 0).drop (strlen a)) = cstr a := by
  unfold strlen cstr
  rw [List.takeWhile_append, List.takeWhile_idem]
  simp only [if_true, List.drop_replicate]
  have : List.takeWhile (fun b => b != 0) (List.replicate (cap - (List.takeWhile (fun b => b != 0) a).length) 0)
      = [] := by
    cases (cap - (List.takeWhile (fun b => b != 0) a).length) with
    | zero => rfl
    | succ n => simp [List.replicate_succ, List.takeWhile_cons]
  rw [this, List.append_nil]

theorem scan_none_all (p : Channel → Bool) :
    ∀ (l : List Channel) (i : Nat), scan p l i = none → ∀ c ∈ l, p c = false := by
  intro l
  induction l with
  | nil => intro i _ c hc; simp at hc
  | cons a t ih =>
    intro i h c hc
    unfold scan at h
    by_cases hp : p a = true
    · simp [hp] at h
    · simp only [hp] at h
      rcases List.mem_cons.mp hc with h1 | h1
      · subst h1; simpa using hp
      · exact ih (i + 1) (by simpa using h) c h1

theorem realloc_length (chans : List Channel) (n : Nat) (junk : Nat → Channel) :
    (realloc chans n junk).length = n := by
  simp only [realloc, List.length_append, List.length_take, List.length_map, List.length_range']
  omega

theorem realloc_take (chans : List Channel) (n k : Nat) (junk : Nat → Channel)
    (hk : k ≤ n) (hk2 : k ≤ chans.length) :
    (realloc chans n junk).take k = chans.take k := by
  unfold realloc
  rw [List.take_append_of_le_length (by rw [List.length_take]; omega), List.take_take]
  congr 1
  omega

theorem u32_pred_succ (n : Nat) (h : n + 1 < 4294967296) : u32_pred (n + 1) = n := by
  unfold u32_pred
  have h1 : (n + 1) % 4294967296 = n + 1 := Nat.mod_eq_of_lt h
  rw [h1]
  simp

theorem to_int_small (n : Nat) (h : n < 2147483648) : to_int n = (n : Int) := by
  unfold to_int
  have h1 : n % 4294967296 = n := Nat.mod_eq_of_lt (by omega)
  rw [h1]
  simp [h]

theorem to_int_large (n : Nat) (h : 2147483648 ≤ n) (h2 : n < 4294967296) : to_int n < 0 := by
  unfold to_int
  have h1 : n % 4294967296 = n := Nat.mod_eq_of_lt h2
  rw [h1]
  have h3 : ¬ n < 2147483648 := by omega
  simp only [h3, if_false]
  omega



theorem join_grow_spec (E : Env) (s : IRC) (g : Nat) (junk : Nat → Channel)
    (hnum : s.num_channels ≤ s.size_channels) (hg : s.size_channels ≤ g)
    (hg32 : g + 1 < 4294967296) :
    join_grow E s g true junk
      = some (some { s with
          channels := (realloc s.channels (g + 1) junk).set s.num_channels (zero_channel E.cap)
          num_channels := s.num_channels + 1
          size_channels := s.size_channels + 1 }) := by
  have hge : g ≥ s.size_channels := hg
  have hm1 : (g + 1) % 4294967296 = g + 1 := Nat.mod_eq_of_lt hg32
  have hm2 : (s.size_channels + 1) % 4294967296 = s.size_channels + 1 := by omega
  have hm3 : (s.num_channels + 1) % 4294967296 = s.num_channels + 1 := by omega
  have hm4 : u32_pred (s.num_channels + 1) = s.num_channels := u32_pred_succ _ (by omega)
  have hlen : (realloc s.channels (g + 1) junk).length = g + 1 := realloc_length _ _ _
  have hidx : s.num_channels < (realloc s.channels (g + 1) junk).length := by omega
  have hup1 : update (realloc s.channels (g + 1) junk) ((s.num_channels : Nat) : Int)
      (fun _ => some (zero_channel E.cap))
      = some ((realloc s.channels (g + 1) junk).set s.num_channels (zero_channel E.cap)) :=
    update_at _ _ _ _ _ (List.getElem?_eq_getElem hidx) rfl
  simp only [join_grow, hge, if_true, hm1, hm2, hm3, hm4, hup1]

theorem join_store_spec (E : Env) (s1 : IRC) (channel : List Nat) (g : Nat) (w : World)
    (i : Nat) (c : Channel) (nm : List Nat)
    (hi : to_int (u32_pred s1.num_channels) = (i : Int))
    (hc : s1.channels[i]? = some c) (hnm : memcpy_name c.name channel = some nm) :
    ∃ w1, join_store E s1 channel g w
        = some (true, { s1 with channels := s1.channels.set i ⟨nm, g, true⟩ }, w1) ∧
      w1.reqs = w.reqs ++ [(s1.sock, fmt_req (bytes "JOIN %s\n") [channel])] := by
  obtain ⟨r, w1, hsend, hreq, _⟩ := irc_send_fmt_some E s1.sock (bytes "JOIN %s\n") [channel] w
  refine ⟨w1, ?_, hreq⟩
  simp only [join_store, hsend, hi]
  rw [update_at _ i _ c ⟨nm, g, true⟩ hc]
  simp only [hnm]

theorem join_store_fault (E : Env) (s1 : IRC) (channel : List Nat) (g : Nat) (w : World)
    (hi : to_int (u32_pred s1.num_channels) < 0) :
    join_store E s1 channel g w = none := by
  obtain ⟨r, w1, hsend, _⟩ := irc_send_fmt_some E s1.sock (bytes "JOIN %s\n") [channel] w
  simp only [join_store, hsend, update, hi, if_true]

/-- Effect of a join that takes the growth branch: a fresh entry is appended
at index `num_channels`, holding the name, the group number and the flag. -/
theorem irc_join_channel_grow (E : Env) (s : IRC) (channel : List Nat) (g : Nat)
    (junk : Nat → Channel) (w : World)
    (hnum : s.num_channels ≤ s.size_channels)
    (hg : s.size_channels ≤ g) (hg32 : g + 1 < 4294967296) (hfit : strlen channel ≤ E.cap) :
    (s.num_channels < 2147483648 →
      ∃ w1, irc_join_channel E s channel g true junk w
        = some (true,
            { s with
              channels := (realloc s.channels (g + 1) junk).set s.num_channels
                ⟨cstr channel ++ (List.replicate E.cap 0).drop (strlen channel), g, true⟩
              num_channels := s.num_channels + 1
              size_channels := s.size_channels + 1 }, w1) ∧
        w1.reqs = w.reqs ++ [(s.sock, fmt_req (bytes "JOIN %s\n") [channel])]) ∧
    (2147483648 ≤ s.num_channels → irc_join_channel E s channel g true junk w = none) := by
  have hgrow := join_grow_spec E s g junk hnum hg hg32
  have hlen : (realloc s.channels (g + 1) junk).length = g + 1 := realloc_length _ _ _
  have hidx : s.num_channels < (realloc s.channels (g + 1) junk).length := by omega
  constructor
  · intro h31
    have hget : ((realloc s.channels (g + 1) junk).set s.num_channels
        (zero_channel E.cap))[s.num_channels]? = some (zero_channel E.cap) := by
      rw [List.getElem?_set]; simp [hidx]
    have hmem : memcpy_name (zero_channel E.cap).name channel
        = some (cstr channel ++ (List.replicate E.cap 0).drop (strlen channel)) := by
      simp [memcpy_name, zero_channel, hfit]
    have hpred : u32_pred (s.num_channels + 1) = s.num_channels := u32_pred_succ _ (by omega)
    have hidx1 : to_int (u32_pred (s.num_channels + 1)) = (s.num_channels : Int) := by
      rw [hpred]; exact to_int_small s.num_channels h31
    obtain ⟨w1, hst, hreq⟩ := join_store_spec E
      { s with
        channels := (realloc s.channels (g + 1) junk).set s.num_channels (zero_channel E.cap)
        num_channels := s.num_channels + 1
        size_channels := s.size_channels + 1 }
      channel g w s.num_channels _ _ hidx1 hget hmem
    refine ⟨w1, ?_, hreq⟩
    simp only [irc_join_channel, hgrow, hst, List.set_set]
  · intro h31
    have hpred : u32_pred (s.num_channels + 1) = s.num_channels := u32_pred_succ _ (by omega)
    simp only [irc_join_channel, hgrow]
    have hidx1 : to_int (u32_pred (s.num_channels + 1)) < 0 := by
      rw [hpred]; exact to_int_large s.num_channels h31 (by omega)
    exact join_store_fault E _ channel g w hidx1

theorem take_set_self (l : List Channel) (n : Nat) (a : Channel) :
    (l.set n a).take n = l.take n := by
  rw [List.set_take]
  exact List.set_eq_of_length_le (by rw [List.length_take]; omega)

theorem live_names_congr (s s1 : IRC) (hnum : s1.num_channels = s.num_channels)
    (h : s1.channels.map (fun c => c.name) = s.channels.map (fun c => c.name)) :
    live_names s1 = live_names s := by
  have key : ∀ t : IRC, live_names t
      = ((t.channels.map (fun c => c.name)).take t.num_channels).map cstr := by
    intro t
    simp only [live_names, live, List.map_take, List.map_map]
    rfl
  rw [key s1, key s, hnum, h]

theorem live_names_of_map (s : IRC) (chans : List Channel) (sz : Nat) (sock : Int)
    (conn : Bool) (h : chans.map (fun c => c.name) = s.channels.map (fun c => c.name)) :
    live_names ⟨chans, s.num_channels, sz, sock, conn⟩ = live_names s :=
  live_names_congr s ⟨chans, s.num_channels, sz, sock, conn⟩ rfl h

theorem map_name_set (l : List Channel) (i : Nat) (c c1 : Channel) (hc : l[i]? = some c)
    (hname : c1.name = c.name) :
    (l.set i c1).map (fun c => c.name) = l.map (fun c => c.name) := by
  apply List.ext_getElem?
  intro j
  simp only [List.getElem?_map, List.getElem?_set]
  by_cases hij : i = j
  · subst hij
    have hi : i < l.length := by
      by_contra hcon
      rw [List.getElem?_eq_none (by omega)] at hc
      exact absurd hc (by simp)
    simp [hi, hc, hname]
  · simp [hij]

theorem map_name_of_pointwise (s : IRC) (chans : List Channel) (i : Nat)
    (f : Channel → Channel) (hf : ∀ c, (f c).name = c.name ∧ (f c).group_num = c.group_num)
    (h : ∀ j, chans[j]? = (s.channels[j]?).map (fun c =>
      if i ≤ j ∧ j < s.num_channels then f c else c)) :
    chans.map (fun c => c.name) = s.channels.map (fun c => c.name) := by
  have := congrArg (List.map Prod.fst) (frame_of_pointwise s chans i f hf h)
  simpa [List.map_map, Function.comp] using this

/-- Effect of `irc_leave_channel` on an allocated index: `PART` is handed to
the sender, the slot is zeroed and the live count decremented. -/
theorem irc_leave_channel_spec (E : Env) (s : IRC) (i : Nat) (w : World) (c : Channel)
    (hc : s.channels[i]? = some c) :
    ∃ w1, irc_leave_channel E s (i : Int) w
        = some (true, { s with channels := s.channels.set i (zero_channel E.cap)
                               num_channels := u32_pred s.num_channels }, w1) ∧
      w1.reqs = w.reqs ++ [(s.sock, fmt_req (bytes "PART %s\n") [c.name])] ∧
      ∃ cs, w1.calls = w.calls ++ cs ∧ w1.tick = w.tick + cs.length ∧
        (CooperativeFrom E w.tick →
          wire cs = on_wire s.sock (fmt_req (bytes "PART %s\n") [c.name])) := by
  have hload : load s.channels (i : Int) = some c := by rw [load_at, hc]
  have hup := update_at s.channels i (fun _ => some (zero_channel E.cap)) c _ hc rfl
  obtain ⟨r, w1, h1, h2, h3⟩ := irc_send_fmt_some E s.sock (bytes "PART %s\n") [c.name] w
  refine ⟨w1, ?_, h2, h3⟩
  simp only [irc_leave_channel, hload, h1, hup]

theorem inv_len_of_map (s : IRC) (chans : List Channel)
    (h : chans.map (fun c => c.name) = s.channels.map (fun c => c.name)) :
    chans.length = s.channels.length := by
  have := congrArg List.length h
  simpa using this

/-- One admissible operation keeps the registry shape and name uniqueness. -/
theorem step_inv (E : Env) (s : IRC) (w : World) (op : Op) (s1 : IRC) (w1 : World)
    (hinv : Inv s) (hadm : admissible E s op = true) (hstep : step E s w op = some (s1, w1)) :
    Inv s1 := by
  obtain ⟨hnum, hsz, h32, huniq⟩ := hinv
  cases op with
  | join channel g alloc junk =>
    simp only [admissible, Bool.and_eq_true, decide_eq_true_eq, Option.isNone_iff_eq_none]
      at hadm
    obtain ⟨⟨⟨⟨hg, halloc⟩, hg32⟩, hfit⟩, hscan⟩ := hadm
    subst halloc
    have hspec := irc_join_channel_grow E s channel g junk w hnum hg hg32 (by omega)
    by_cases h31 : s.num_channels < 2147483648
    · obtain ⟨w2, hj, _⟩ := hspec.1 h31
      simp only [step, hj, Option.some.injEq, Prod.mk.injEq] at hstep
      obtain ⟨hs1, _⟩ := hstep
      subst hs1
      have hlen : (realloc s.channels (g + 1) junk).length = g + 1 := realloc_length _ _ _
      refine ⟨by simp; omega, by simp only [List.length_set, hlen]; omega, by simp; omega, ?_⟩
      have hlive : live ({ s with
            channels := (realloc s.channels (g + 1) junk).set s.num_channels
              ⟨cstr channel ++ (List.replicate E.cap 0).drop (strlen channel), g, true⟩
            num_channels := s.num_channels + 1
            size_channels := s.size_channels + 1 } : IRC)
          = live s ++ [⟨cstr channel ++ (List.replicate E.cap 0).drop (strlen channel), g, true⟩] := by
        simp only [live]
        rw [List.take_succ, take_set_self, realloc_take _ _ _ _ (by omega) (by omega),
          List.getElem?_set]
        have hlt : s.num_channels < g + 1 := by omega
        simp [hlen, hlt]
      unfold NamesUnique live_names
      rw [hlive, List.map_append, List.nodup_append]
      refine ⟨huniq, by simp, ?_⟩
      intro x hx1 hx2
      simp only [List.map_cons, List.map_nil, List.mem_singleton] at hx2
      rw [cstr_memcpy_zero] at hx2
      obtain ⟨c, hc, hcx⟩ := List.mem_map.mp hx1
      have hne := scan_none_all _ _ _ hscan c hc
      simp only [streq, beq_eq_false_iff_ne, ne_eq] at hne
      exact hne (by rw [← hx2, ← hcx])
    · have hnone := hspec.2 (by omega)
      simp [step, hnone] at hstep
  | rejoin index =>
    simp only [admissible, Bool.and_eq_true, decide_eq_true_eq] at hadm
    obtain ⟨h0, hlt⟩ := hadm
    obtain ⟨i, rfl⟩ := Int.eq_ofNat_of_zero_le h0
    have hi : i < s.channels.length := by omega
    obtain ⟨c, hc⟩ : ∃ c, s.channels[i]? = some c := ⟨_, List.getElem?_eq_getElem hi⟩
    obtain ⟨w2, hre, _⟩ := irc_rejoin_channel_spec E s i w c hc
    simp only [step, hre, Option.some.injEq, Prod.mk.injEq] at hstep
    obtain ⟨hs1, _⟩ := hstep
    subst hs1
    have hmap := map_name_set s.channels i c { c with in_channel := true } hc rfl
    refine ⟨hnum, ?_, h32, ?_⟩
    · simpa using hsz
    · unfold NamesUnique
      rw [live_names_of_map s _ _ _ _ hmap]
      exact huniq
  | leave index =>
    simp only [admissible, Bool.and_eq_true, decide_eq_true_eq] at hadm
    obtain ⟨hpos, hidx⟩ := hadm
    obtain ⟨i, rfl⟩ := Int.eq_ofNat_of_zero_le (by omega : 0 ≤ index)
    have hi1 : i + 1 = s.num_channels := by omega
    have hi : i < s.channels.length := by omega
    obtain ⟨c, hc⟩ : ∃ c, s.channels[i]? = some c := ⟨_, List.getElem?_eq_getElem hi⟩
    obtain ⟨w2, hle, _⟩ := irc_leave_channel_spec E s i w c hc
    simp only [step, hle, Option.some.injEq, Prod.mk.injEq] at hstep
    obtain ⟨hs1, _⟩ := hstep
    subst hs1
    have hpred : u32_pred s.num_channels = i := by
      rw [← hi1]; exact u32_pred_succ i (by omega)
    refine ⟨?_, ?_, h32, ?_⟩
    · simp only [hpred]; omega
    · simpa using hsz
    · unfold NamesUnique live_names live
      simp only [hpred, take_set_self]
      have hsub : List.Sublist ((s.channels.take i).map (fun c => cstr c.name))
          (live_names s) := by
        unfold live_names live
        exact List.Sublist.map _ (List.take_sublist_take_left _ (by omega))
      exact List.Nodup.sublist hsub huniq
  | leave_all => simp [admissible] at hadm
  | disconnect =>
    obtain ⟨chans, w2, hdis, hpt, _⟩ := irc_disconnect_spec E s w (by omega)
    simp only [step, hdis, Option.some.injEq, Prod.mk.injEq] at hstep
    obtain ⟨hs1, _⟩ := hstep
    subst hs1
    have hmap := map_name_of_pointwise s chans 0 (fun c => { c with in_channel := false })
      (fun c => ⟨rfl, rfl⟩) hpt
    refine ⟨hnum, ?_, h32, ?_⟩
    · simp only [inv_len_of_map s chans hmap]; exact hsz
    · unfold NamesUnique
      rw [live_names_of_map s _ _ _ _ hmap]
      exact huniq
  | reconnect net =>
    by_cases hres : net.gai = 0
    · obtain ⟨_, _, _, chans, w2, _, _, _, hre, hpt, _⟩ :=
        (irc_reconnect_spec E net s w (by omega)).2 hres
      simp only [step, hre, Option.some.injEq, Prod.mk.injEq] at hstep
      obtain ⟨hs1, _⟩ := hstep
      subst hs1
      have hmap := map_name_of_pointwise s chans 0 (fun c => { c with in_channel := true })
        (fun c => ⟨rfl, rfl⟩) hpt
      refine ⟨hnum, ?_, h32, ?_⟩
      · simp only [inv_len_of_map s chans hmap]; exact hsz
      · unfold NamesUnique
        rw [live_names_of_map s _ _ _ _ hmap]
        exact huniq
    · obtain ⟨chans, w2, hre, hpt⟩ := (irc_reconnect_spec E net s w (by omega)).1 hres
      simp only [step, hre, Option.some.injEq, Prod.mk.injEq] at hstep
      obtain ⟨hs1, _⟩ := hstep
      subst hs1
      have hmap := map_name_of_pointwise s chans 0 (fun c => { c with in_channel := false })
        (fun c => ⟨rfl, rfl⟩) hpt
      refine ⟨hnum, ?_, h32, ?_⟩
      · simp only [inv_len_of_map s chans hmap]; exact hsz
      · unfold NamesUnique
        rw [live_names_of_map s _ _ _ _ hmap]
        exact huniq

theorem inv_init : Inv irc_init := by
  refine ⟨by decide, by decide, by decide, ?_⟩
  unfold NamesUnique
  decide

theorem run_admissible_inv (E : Env) :
    ∀ (ops : List Op) (s : IRC) (w : World) (s1 : IRC) (w1 : World),
      Inv s → run_admissible E ops s w = some (s1, w1) → Inv s1 := by
  intro ops
  induction ops with
  | nil =>
    intro s w s1 w1 hinv h
    simp only [run_admissible, Option.some.injEq, Prod.mk.injEq] at h
    rw [← h.1]
    exact hinv
  | cons op rest ih =>
    intro s w s1 w1 hinv h
    unfold run_admissible at h
    by_cases hadm : admissible E s op = true
    · simp only [hadm, if_true] at h
      cases hstep : step E s w op with
      | none => simp [hstep] at h
      | some r =>
        obtain ⟨s2, w2⟩ := r
        simp only [hstep] at h
        exact ih s2 w2 s1 w1 (step_inv E s w op s2 w2 hinv hadm hstep) h
    · simp [hadm] at h

/-- C9, amended: in every state reached from `irc_init` by a sequence of
admissible operations (a join that grows the registry with a name that fits
the field and that no live entry carries, a rejoin of a live index, a leave of
the last live index, a disconnect, a reconnect), no two distinct live entries
carry the same name. -/
theorem names_unique_of_admissible (E : Env) (ops : List Op) (w : World) (s1 : IRC)
    (w1 : World) (h : run_admissible E ops irc_init w = some (s1, w1)) : NamesUnique s1 :=
  (run_admissible_inv E ops irc_init w s1 w1 inv_init h).2.2.2

/-- Witness for C9, amended: join `#a` and `#b`, disconnect, reconnect, rejoin
index 0, leave index 1, join `#c`; the live names are then `#a` and `#c`. -/
theorem names_unique_of_admissible_witness :
    ∃ s1 w1,
      run_admissible env_full sample_ops irc_init world0 = some (s1, w1) ∧
      live_names s1 = [bytes "#a", bytes "#c"] ∧ NamesUnique s1 :=
  ⟨_, _, rfl, by decide, names_unique_of_admissible env_full sample_ops world0 _ _ rfl⟩

/-- A leave below the last live index is outside the admissible operations:
with four channels joined, leaving index 0 and then index 1 gives two live
entries whose names are both empty. -/
theorem leave_below_last_duplicates_empty_name :
    ∃ s w,
      run env_full
        [Op.join (bytes "#a") 0 true junk7, Op.join (bytes "#b") 1 true junk7,
         Op.join (bytes "#c") 2 true junk7, Op.join (bytes "#d") 3 true junk7,
         Op.leave 0, Op.leave 1] irc_init world0 = some (s, w) ∧
      live_names s = [[], []] ∧ ¬ NamesUnique s :=
  ⟨_, _, rfl, by decide, by decide⟩

/-- A join that takes the no-growth branch is outside the admissible
operations: with `#abc` and `#xbc` joined, joining `#a` with group 0 writes two
bytes over the last entry, whose name becomes `#abc` as well. -/
theorem join_without_growth_merges_names :
    ∃ s w,
      run env_full
        [Op.join (bytes "#abc") 0 true junk7, Op.join (bytes "#xbc") 1 true junk7,
         Op.join (bytes "#a") 0 true junk7] irc_init world0 = some (s, w) ∧
      live_names s = [bytes "#abc", bytes "#abc"] ∧ ¬ NamesUnique s :=
  ⟨_, _, rfl, by decide, by decide⟩

/-! ## What holds next to the failing cases -/

theorem env_full_cooperative : Cooperative env_full := by
  intro t c
  exact ⟨le_refl _, fun h => by simpa [env_full] using h⟩

theorem render_privmsg (channel author text : List Nat) :
    render (bytes "PRIVMSG %s :<%s> %s\n") [channel, author, text]
      = privmsg_line channel author text := by
  simp only [privmsg_line, List.append_assoc]
  rfl

/-- Below the buffer size `irc_message` is exact: when the rendered `PRIVMSG`
line is at most 511 bytes long, the socket is valid and the network is
cooperative, the call returns the length of the line and the bytes put on the
wire are the line. -/
theorem irc_message_exact_below_512 (E : Env) (sock : Int) (channel author text : List Nat)
    (w : World) (hco : Cooperative E) (hs : 0 ≤ sock)
    (hlen : (privmsg_line channel author text).length ≤ 511) :
    ∃ cs w1, irc_message E sock channel author text w
        = some (((privmsg_line channel author text).length : Int), w1) ∧
      w1.calls = w.calls ++ cs ∧ wire cs = privmsg_line channel author text := by
  have hpos : 0 < (privmsg_line channel author text).length := by
    have h8 : (bytes "PRIVMSG ").length = 8 := by decide
    simp only [privmsg_line, List.length_append, h8]
    omega
  obtain ⟨cs, h1, h2⟩ := irc_send_wire E sock
    ((privmsg_line channel author text).take 511 ++ [0])
    (privmsg_line channel author text).length w (cooperative_from E w.tick hco) hs
    (by simp only [List.length_append, List.length_take, List.length_singleton]; omega)
  have htake : ((privmsg_line channel author text).take 511 ++ [0]).take
      (privmsg_line channel author text).length = privmsg_line channel author text := by
    rw [List.take_append_of_le_length (by rw [List.length_take]; omega), List.take_take]
    simp
    exact hlen
  have hclamp : ¬ (((privmsg_line channel author text).length : Int) > 512) := by omega
  have hret : ¬ (((privmsg_line channel author text).length : Int) ≤ 0) := by omega
  refine ⟨cs, ⟨w.tick + cs.length, w.calls ++ cs,
    w.reqs ++ [(sock, ((privmsg_line channel author text).take 511 ++ [0]).take
      (privmsg_line channel author text).length)]⟩, ?_, rfl, by rw [h2, htake]⟩
  simp only [irc_message, irc_send_fmt, render_privmsg, hclamp, if_false, h1, hret]

theorem scan_some_of_mem (p : Channel → Bool) :
    ∀ (l : List Channel) (i : Nat) (c : Channel), c ∈ l → p c = true →
      (scan p l i).isSome = true := by
  intro l
  induction l with
  | nil => intro i c hc; simp at hc
  | cons a t ih =>
    intro i c hc hp
    unfold scan
    by_cases ha : p a = true
    · simp [ha]
    · simp only [ha]
      rcases List.mem_cons.mp hc with h1 | h1
      · subst h1; exact absurd hp ha
      · exact ih (i + 1) c h1 hp

/-- A join that grows the registry does register the channel: when
`group_num >= size_channels`, `realloc` succeeds for `group_num + 1 < 2^32`
entries, the name fits the field and the live count is below `2^31`,
`irc_join_channel` returns true and `irc_in_channel` is then true for the name. -/
theorem join_grow_in_channel (E : Env) (s : IRC) (channel : List Nat) (g : Nat)
    (junk : Nat → Channel) (w : World)
    (hnum : s.num_channels ≤ s.size_channels) (hg : s.size_channels ≤ g)
    (hg32 : g + 1 < 4294967296) (hfit : strlen channel ≤ E.cap)
    (h31 : s.num_channels < 2147483648) :
    ∃ s1 w1, irc_join_channel E s channel g true junk w = some (true, s1, w1) ∧
      irc_in_channel s1 channel = true := by
  obtain ⟨w1, hj, _⟩ := (irc_join_channel_grow E s channel g junk w hnum hg hg32 hfit).1 h31
  refine ⟨_, w1, hj, ?_⟩
  have hlen : (realloc s.channels (g + 1) junk).length = g + 1 := realloc_length _ _ _
  have hmem : (⟨cstr channel ++ (List.replicate E.cap 0).drop (strlen channel), g, true⟩ : Channel)
      ∈ live ({ s with
          channels := (realloc s.channels (g + 1) junk).set s.num_channels
            ⟨cstr channel ++ (List.replicate E.cap 0).drop (strlen channel), g, true⟩
          num_channels := s.num_channels + 1
          size_channels := s.size_channels + 1 } : IRC) := by
    simp only [live]
    rw [List.mem_iff_getElem?]
    refine ⟨s.num_channels, ?_⟩
    rw [List.getElem?_take, List.getElem?_set]
    have hlt : s.num_channels < g + 1 := by omega
    simp [hlen, hlt]
  unfold irc_in_channel
  apply scan_some_of_mem _ _ _ _ hmem
  simp only [streq, cstr_memcpy_zero, beq_self_eq_true, Bool.and_self]

end Toxirc
